import Mathlib

/-!
Verification development for a low-latency trading system.

Shallow embedding of the core components, translated from the C++ sources:
  * `src/include/order_book/price_level.hpp`, `src/src/order_book.cpp` — the
    price-time-priority matching engine (`Trading.Book`);
  * `src/include/containers/lock_free_queue.hpp` — the SPSC ring buffer,
    viewed as a sequential state machine (`Trading.Ring`);
  * `src/include/containers/memory_pool.hpp` — the slab pool (`Trading.Pool`);
  * `src/src/risk_manager.cpp`, `src/src/position_tracker.cpp` — the pre-trade
    risk gate (`Trading.RiskManager`).

Machine integers are modelled as `Nat`/`Int`.  The C++ code performs no
overflow-relevant arithmetic on the paths modelled here: prices (`int64_t`)
are only compared, quantities (`uint64_t`) only ever subtract smaller values
from larger ones on reachable states, and the one place the source clamps a
subtraction (`PriceLevel::remove_order`) is modelled with the same clamp.
IEEE doubles in the risk gate are modelled as exact rationals; every claim
settled against them is decided at values far from any rounding boundary.
-/

namespace Trading

/-- Side of an order (`trading::Side`). -/
inductive Side where
  | buy
  | sell
deriving DecidableEq, Repr

/-- Order type (`trading::OrderType`). -/
inductive OrderType where
  | limit
  | market
  | ioc
  | fok
deriving DecidableEq, Repr

/-- Order status (`trading::OrderStatus`). -/
inductive OrderStatus where
  | osNew
  | osPartFilled
  | osFilled
  | osCancelled
  | osRejected
deriving DecidableEq, Repr

/-- Resident order entry (`trading::OrderBookEntry`).  The intrusive
`prev`/`next` pointers are represented by the entry's position in its
level's FIFO list. -/
structure OBEntry where
  id : Nat
  instrument : Nat
  side : Side
  otype : OrderType
  status : OrderStatus
  price : Int
  quantity : Nat
  filled_quantity : Nat
  timestamp : Nat
deriving DecidableEq, Repr

/-- Trade record (`trading::Trade`). -/
structure Trade where
  buyer_order_id : Nat
  seller_order_id : Nat
  instrument : Nat
  price : Int
  quantity : Nat
  timestamp : Nat
deriving DecidableEq, Repr

/-- Price level (`trading::PriceLevel`): a FIFO of orders at one price with
stored aggregates.  `orders` is head-first (head = highest time priority). -/
structure PriceLevel where
  price : Int
  total_quantity : Nat
  order_count : Nat
  orders : List OBEntry
deriving DecidableEq, Repr

/-- Sum of residuals (`quantity - filled_quantity`) over a list of entries. -/
def sumResiduals (orders : List OBEntry) : Nat :=
  (orders.map (fun e => e.quantity - e.filled_quantity)).sum

/-- `PriceLevel::add_order`: append at the tail, add the entry's residual to
`total_quantity`, increment `order_count`. -/
def PriceLevel.add_order (lv : PriceLevel) (e : OBEntry) : PriceLevel :=
  { lv with
      orders := lv.orders ++ [e]
      total_quantity := lv.total_quantity + (e.quantity - e.filled_quantity)
      order_count := lv.order_count + 1 }

/-- Remove the first entry with the given id from a FIFO list. -/
def removeFirstById (orders : List OBEntry) (id : Nat) : List OBEntry :=
  match orders with
  | [] => []
  | e :: rest => if e.id = id then rest else e :: removeFirstById rest id

/-- `PriceLevel::remove_order`: unlink the entry, subtract its residual at
the time of removal from `total_quantity` (clamped at 0 exactly as the
source does), decrement `order_count`.  The source assumes the entry is
linked into this level; when the id is absent the model leaves the level
unchanged. -/
def PriceLevel.remove_order (lv : PriceLevel) (id : Nat) : PriceLevel :=
  match lv.orders.find? (fun e => e.id == id) with
  | none => lv
  | some e =>
    let remaining := e.quantity - e.filled_quantity
    { lv with
        orders := removeFirstById lv.orders id
        total_quantity :=
          if remaining ≤ lv.total_quantity then lv.total_quantity - remaining else 0
        order_count := lv.order_count - 1 }

/-- State threaded through a matching walk: the incoming order's filled
quantity, the trade count, the recorded trades, the id map and the pool's
free-slot count. -/
structure WalkSt where
  incFilled : Nat
  tc : Nat
  trades : List Trade
  om : List (Nat × OBEntry)
  pf : Nat
deriving Repr

/-- Erase a key from the id map (`orders_.erase`). -/
def eraseKey (om : List (Nat × OBEntry)) (id : Nat) : List (Nat × OBEntry) :=
  om.filter (fun p => p.1 != id)

/-- Look up a key in the id map (`orders_.find`). -/
def lookupKey (om : List (Nat × OBEntry)) (id : Nat) : Option OBEntry :=
  (om.find? (fun p => p.1 == id)).map (fun p => p.2)

/-- Maximum trades recorded per matching call (`MAX_TRADES_PER_MATCH`). -/
def MAX_TRADES_PER_MATCH : Nat := 64

/-- Capacity of the slab pool backing the book (`ORDER_POOL_SIZE`). -/
def ORDER_POOL_SIZE : Nat := 65536

/-- Inner matching loop of `OrderBook::try_match_limit` /
`try_match_market`: consume resting orders of one level head-first while the
incoming order has residual and fewer than 64 trades are recorded.  Returns
the level's remaining orders, its stored `total_quantity` and `order_count`,
and the updated walk state.  A fully consumed resting order is removed via
`PriceLevel::remove_order`, whose residual is already zero at that point, so
`total_quantity` is left unchanged there, exactly as in the source; a
partial fill subtracts `fill_qty` explicitly. -/
def consumeOrders (instr : Nat) (inc : OBEntry) (orders : List OBEntry)
    (tq oc : Nat) (s : WalkSt) : List OBEntry × Nat × Nat × WalkSt :=
  match orders with
  | [] => ([], tq, oc, s)
  | resting :: rest =>
    if s.tc < MAX_TRADES_PER_MATCH then
      let entryRem := inc.quantity - s.incFilled
      if entryRem = 0 then (resting :: rest, tq, oc, s)
      else
        let restingRem := resting.quantity - resting.filled_quantity
        let fillQty := min entryRem restingRem
        let tr : Trade :=
          ⟨if inc.side = Side.buy then inc.id else resting.id,
           if inc.side = Side.sell then inc.id else resting.id,
           instr, resting.price, fillQty, inc.timestamp⟩
        let s1 : WalkSt :=
          { s with
              incFilled := s.incFilled + fillQty
              tc := s.tc + 1
              trades := s.trades ++ [tr] }
        let newFilled := resting.filled_quantity + fillQty
        if resting.quantity ≤ newFilled then
          let rem := resting.quantity - newFilled
          let tq1 := if rem ≤ tq then tq - rem else 0
          let s2 : WalkSt := { s1 with om := eraseKey s1.om resting.id, pf := s1.pf + 1 }
          consumeOrders instr inc rest tq1 (oc - 1) s2
        else
          -- Partial fill of the resting head: here `fillQty = entryRem`, so
          -- the incoming order is fully filled and the source loop's next
          -- iteration exits with the state unchanged (via the
          -- `entry_remaining == 0` return when another trade slot is free,
          -- via the loop condition when the cap was just reached).  That
          -- exit is inlined here, keeping the recursion structural.
          let resting1 : OBEntry :=
            { resting with filled_quantity := newFilled, status := OrderStatus.osPartFilled }
          (resting1 :: rest, tq - fillQty, oc, s1)
    else (resting :: rest, tq, oc, s)

/-- Price-compatibility break of `try_match_limit` (lines 91-92 of
`order_book.cpp`): a buy stops at a level strictly above its limit, a sell
strictly below. -/
def priceBreak (inc : OBEntry) (p : Int) : Bool :=
  match inc.side with
  | Side.buy => decide (p > inc.price)
  | Side.sell => decide (p < inc.price)

/-- Outer matching loop: walk the opposite side's levels best-first, erasing
levels that become empty.  `checkPrice` is true for the limit/IOC/FOK walk
and false for the market walk (the only difference between
`try_match_limit` and `try_match_market` in the source). -/
def walkLevels (instr : Nat) (inc : OBEntry) (checkPrice : Bool)
    (levels : List PriceLevel) (s : WalkSt) : List PriceLevel × WalkSt :=
  match levels with
  | [] => ([], s)
  | lv :: rest =>
    if s.tc < MAX_TRADES_PER_MATCH then
      if checkPrice && priceBreak inc lv.price then (lv :: rest, s)
      else
        match consumeOrders instr inc lv.orders lv.total_quantity lv.order_count s with
        | (ords, tq, oc, s1) =>
          if ords.isEmpty then walkLevels instr inc checkPrice rest s1
          else (⟨lv.price, tq, oc, ords⟩ :: rest, s1)
    else (lv :: rest, s)

/-- Sentinel for best-ask when the ask side is empty:
`std::numeric_limits<Price>::max()`. -/
def askMax : Int := 9223372036854775807

/-- The order book (`trading::OrderBook`).  `bids` is sorted by strictly
descending price and `asks` by strictly ascending price, mirroring the two
`std::map` iteration orders.  `ordersMap` models the id hash map (for each
mapped id, the entry's immutable fields as of insertion, which are all the
map lookup is used for).  `poolFree` is the slab pool's free-slot count. -/
structure Book where
  instrument : Nat
  bids : List PriceLevel
  asks : List PriceLevel
  ordersMap : List (Nat × OBEntry)
  poolFree : Nat
  bestBidC : Int
  bestAskC : Int
  bestBidQtyC : Nat
  bestAskQtyC : Nat
deriving Repr

/-- Freshly constructed book. -/
def Book.init (instr : Nat) : Book :=
  ⟨instr, [], [], [], ORDER_POOL_SIZE, 0, askMax, 0, 0⟩

/-- `OrderBook::update_best_bid`. -/
def Book.updateBestBid (b : Book) : Book :=
  match b.bids with
  | [] => { b with bestBidC := 0, bestBidQtyC := 0 }
  | lv :: _ => { b with bestBidC := lv.price, bestBidQtyC := lv.total_quantity }

/-- `OrderBook::update_best_ask`. -/
def Book.updateBestAsk (b : Book) : Book :=
  match b.asks with
  | [] => { b with bestAskC := askMax, bestAskQtyC := 0 }
  | lv :: _ => { b with bestAskC := lv.price, bestAskQtyC := lv.total_quantity }

/-- Insert an entry into the bid levels (descending map `bids_`), creating
the level if absent (`bids_[price]` default-constructs). -/
def bidInsert (levels : List PriceLevel) (e : OBEntry) : List PriceLevel :=
  match levels with
  | [] => [PriceLevel.add_order ⟨e.price, 0, 0, []⟩ e]
  | lv :: rest =>
    if e.price > lv.price then PriceLevel.add_order ⟨e.price, 0, 0, []⟩ e :: lv :: rest
    else if e.price = lv.price then PriceLevel.add_order lv e :: rest
    else lv :: bidInsert rest e

/-- Insert an entry into the ask levels (ascending map `asks_`). -/
def askInsert (levels : List PriceLevel) (e : OBEntry) : List PriceLevel :=
  match levels with
  | [] => [PriceLevel.add_order ⟨e.price, 0, 0, []⟩ e]
  | lv :: rest =>
    if e.price < lv.price then PriceLevel.add_order ⟨e.price, 0, 0, []⟩ e :: lv :: rest
    else if e.price = lv.price then PriceLevel.add_order lv e :: rest
    else lv :: askInsert rest e

/-- Find the level at a given price. -/
def findLevel (levels : List PriceLevel) (p : Int) : Option PriceLevel :=
  levels.find? (fun lv => lv.price == p)

/-- `OrderBook::add_to_book`: link the entry into its level and refresh the
cached BBO only when the price is strictly better or the cached quantity is
zero. -/
def Book.add_to_book (b : Book) (e : OBEntry) : Book :=
  match e.side with
  | Side.buy =>
    let bids1 := bidInsert b.bids e
    let b1 := { b with bids := bids1 }
    if e.price > b.bestBidC ∨ b.bestBidQtyC = 0 then
      { b1 with
          bestBidC := e.price
          bestBidQtyC := ((findLevel bids1 e.price).map PriceLevel.total_quantity).getD 0 }
    else b1
  | Side.sell =>
    let asks1 := askInsert b.asks e
    let b1 := { b with asks := asks1 }
    if e.price < b.bestAskC ∨ b.bestAskQtyC = 0 then
      { b1 with
          bestAskC := e.price
          bestAskQtyC := ((findLevel asks1 e.price).map PriceLevel.total_quantity).getD 0 }
    else b1

/-- `OrderBook::match_order`: run the walk for the order's type, then settle
the incoming entry.  FOK with residual and at least one recorded trade
discards the trades and the entry (the resting side stays as the walk left
it, exactly as in the source); Market/IOC residuals are cancelled; Limit
residuals rest on the book; otherwise the entry is filled and freed.  An
FOK with residual and no trades falls through every branch of the source and
leaks its entry (it stays in the id map and the pool slot is not freed). -/
def Book.match_order (b : Book) (e : OBEntry) : Book × List Trade :=
  let s0 : WalkSt := ⟨0, 0, [], b.ordersMap, b.poolFree⟩
  let walked : Book × WalkSt :=
    if e.otype = OrderType.market then
      match e.side with
      | Side.buy =>
        match walkLevels b.instrument e false b.asks s0 with
        | (asks1, s1) => (Book.updateBestAsk { b with asks := asks1 }, s1)
      | Side.sell =>
        match walkLevels b.instrument e false b.bids s0 with
        | (bids1, s1) => (Book.updateBestBid { b with bids := bids1 }, s1)
    else
      match e.side with
      | Side.buy =>
        match walkLevels b.instrument e true b.asks s0 with
        | (asks1, s1) => (Book.updateBestAsk { b with asks := asks1 }, s1)
      | Side.sell =>
        match walkLevels b.instrument e true b.bids s0 with
        | (bids1, s1) => (Book.updateBestBid { b with bids := bids1 }, s1)
  match walked with
  | (b1, s1) =>
    let remaining := e.quantity - s1.incFilled
    if e.otype = OrderType.fok ∧ remaining > 0 ∧ s1.tc > 0 then
      ({ b1 with ordersMap := eraseKey s1.om e.id, poolFree := s1.pf + 1 }, [])
    else if remaining > 0 then
      if e.otype = OrderType.ioc ∨ e.otype = OrderType.market then
        ({ b1 with ordersMap := eraseKey s1.om e.id, poolFree := s1.pf + 1 }, s1.trades)
      else if e.otype = OrderType.limit then
        let e1 : OBEntry :=
          { e with
              filled_quantity := s1.incFilled
              status := if s1.incFilled > 0 then OrderStatus.osPartFilled else OrderStatus.osNew }
        (Book.add_to_book { b1 with ordersMap := s1.om, poolFree := s1.pf } e1, s1.trades)
      else
        ({ b1 with ordersMap := s1.om, poolFree := s1.pf }, s1.trades)
    else
      ({ b1 with ordersMap := eraseKey s1.om e.id, poolFree := s1.pf + 1 }, s1.trades)

/-- `OrderBook::add_order`: allocate an entry (dropping the order when the
pool is exhausted), insert it into the id map, and match. -/
def Book.add_order (b : Book) (id : Nat) (side : Side) (otype : OrderType)
    (price : Int) (quantity : Nat) (ts : Nat) : Book × List Trade :=
  if b.poolFree = 0 then (b, [])
  else
    let e : OBEntry := ⟨id, b.instrument, side, otype, OrderStatus.osNew, price, quantity, 0, ts⟩
    let b1 := { b with
                  poolFree := b.poolFree - 1
                  ordersMap := (id, e) :: eraseKey b.ordersMap id }
    Book.match_order b1 e

/-- Remove an entry from its level by id; erase the level if it becomes
empty (`OrderBook::remove_from_book`, per-side body). -/
def removeFromLevels (levels : List PriceLevel) (p : Int) (id : Nat) : List PriceLevel :=
  match levels with
  | [] => []
  | lv :: rest =>
    if lv.price = p then
      let lv1 := PriceLevel.remove_order lv id
      if lv1.orders.isEmpty then rest else lv1 :: rest
    else lv :: removeFromLevels rest p id

/-- `OrderBook::remove_from_book`: unlink from the level and refresh the
cached BBO of that side. -/
def Book.remove_from_book (b : Book) (e : OBEntry) : Book :=
  match e.side with
  | Side.buy => Book.updateBestBid { b with bids := removeFromLevels b.bids e.price e.id }
  | Side.sell => Book.updateBestAsk { b with asks := removeFromLevels b.asks e.price e.id }

/-- `OrderBook::cancel_order`. -/
def Book.cancel_order (b : Book) (id : Nat) : Book × Bool :=
  match lookupKey b.ordersMap id with
  | none => (b, false)
  | some e =>
    let b1 := Book.remove_from_book b e
    ({ b1 with ordersMap := eraseKey b1.ordersMap id, poolFree := b1.poolFree + 1 }, true)

/-- `OrderBook::modify_order`: cancel then re-add (time priority lost). -/
def Book.modify_order (b : Book) (id : Nat) (newPrice : Int) (newQty : Nat) :
    Book × List Trade :=
  match lookupKey b.ordersMap id with
  | none => (b, [])
  | some e =>
    let b1 := Book.remove_from_book b e
    let b2 := { b1 with ordersMap := eraseKey b1.ordersMap id, poolFree := b1.poolFree + 1 }
    Book.add_order b2 id e.side e.otype newPrice newQty e.timestamp

/-- `OrderBook::best_bid`. -/
def Book.best_bid (b : Book) : Int := b.bestBidC

/-- `OrderBook::best_ask` (sentinel mapped to 0). -/
def Book.best_ask (b : Book) : Int := if b.bestAskC = askMax then 0 else b.bestAskC

/-- `OrderBook::best_bid_quantity`. -/
def Book.best_bid_quantity (b : Book) : Nat := b.bestBidQtyC

/-- `OrderBook::best_ask_quantity`. -/
def Book.best_ask_quantity (b : Book) : Nat := b.bestAskQtyC

/-- One public mutating call on the book. -/
inductive BookOp where
  | add (id : Nat) (side : Side) (otype : OrderType) (price : Int) (qty ts : Nat)
  | cancel (id : Nat)
  | modify (id : Nat) (price : Int) (qty : Nat)
deriving Repr

/-- Apply one call, discarding its return value. -/
def Book.applyOp (b : Book) (op : BookOp) : Book :=
  match op with
  | BookOp.add id sd ot p q ts => (Book.add_order b id sd ot p q ts).1
  | BookOp.cancel id => (Book.cancel_order b id).1
  | BookOp.modify id p q => (Book.modify_order b id p q).1

/-- Run a sequence of calls from the freshly constructed book. -/
def runBook (instr : Nat) (ops : List BookOp) : Book :=
  ops.foldl Book.applyOp (Book.init instr)

/-- Price bound ruling out the best-ask sentinel collision: an order priced
exactly at `std::numeric_limits<Price>::max()` is indistinguishable from an
empty ask side through `best_ask()`. -/
def opPriceBound (op : BookOp) : Prop :=
  match op with
  | BookOp.add _ _ _ p _ _ => p < askMax
  | BookOp.cancel _ => True
  | BookOp.modify _ p _ => p < askMax

instance (op : BookOp) : Decidable (opPriceBound op) := by
  cases op <;> simp only [opPriceBound] <;> infer_instance

/-- Prices of a list of levels, in list order. -/
def pricesOf (ls : List PriceLevel) : List Int := ls.map PriceLevel.price

/-- Head-of-asks strictly above a price (used to say a buy is not
marketable against the current book). -/
def headPriceAbove (levels : List PriceLevel) (p : Int) : Bool :=
  match levels with
  | [] => true
  | lv :: _ => decide (p < lv.price)

/-- Head-of-bids strictly below a price (a sell is not marketable). -/
def headPriceBelow (levels : List PriceLevel) (p : Int) : Bool :=
  match levels with
  | [] => true
  | lv :: _ => decide (lv.price < p)

/-! ## SPSC ring buffer (`trading::LockFreeRingBuffer`)

The buffer is modelled as a sequential state machine, which is exactly the
interleaving semantics of one producer and one consumer whose operations
are serialized by the release/acquire handoff.  `Capacity` is `N`; the two
indices are stored already masked (the source masks with `& (N-1)` at every
update, which for a power of two `N` equals `% N`). -/

/-- Ring-buffer state: the backing array (as a function), plus the masked
`head_` and `tail_` indices. -/
structure Ring (α : Type) (N : Nat) where
  buf : Nat → α
  head : Nat
  tail : Nat

/-- Freshly constructed buffer (value-initialized storage). -/
def Ring.init (α : Type) [Inhabited α] (N : Nat) : Ring α N := ⟨fun _ => default, 0, 0⟩

/-- Usable capacity (`capacity()` returns `Capacity - 1`). -/
def Ring.capacity (N : Nat) : Nat := N - 1

/-- `try_push`: fail iff advancing the tail would meet the head, else write
the slot at `tail_` and advance `tail_`. -/
def Ring.try_push {α : Type} {N : Nat} (r : Ring α N) (x : α) : Ring α N × Bool :=
  let nextTail := (r.tail + 1) % N
  if nextTail = r.head then (r, false)
  else (⟨fun i => if i = r.tail then x else r.buf i, r.head, nextTail⟩, true)

/-- `try_pop`: fail iff `head_ == tail_`, else read the slot at `head_` and
advance `head_`. -/
def Ring.try_pop {α : Type} {N : Nat} (r : Ring α N) : Ring α N × Option α :=
  if r.head = r.tail then (r, none)
  else (⟨r.buf, (r.head + 1) % N, r.tail⟩, some (r.buf r.head))

/-- Number of items held (`size()`: `(tail - head) & MASK`, written
wrap-safely over `Nat`). -/
def Ring.size {α : Type} {N : Nat} (r : Ring α N) : Nat := (r.tail + N - r.head) % N

/-- The queue's abstract contents, oldest first. -/
def Ring.contents {α : Type} {N : Nat} (r : Ring α N) : List α :=
  (List.range r.size).map (fun i => r.buf ((r.head + i) % N))

/-- One producer/consumer operation on the ring. -/
inductive RingOp (α : Type) where
  | push (x : α)
  | pop

/-- Trace state: the ring plus the values successfully pushed and popped so
far, in order. -/
structure RingRun (α : Type) (N : Nat) where
  ring : Ring α N
  pushed : List α
  popped : List α

/-- Apply one operation, recording successful pushes and pops. -/
def ringStep {α : Type} {N : Nat} (st : RingRun α N) (op : RingOp α) : RingRun α N :=
  match op with
  | RingOp.push x =>
    match st.ring.try_push x with
    | (r, true) => ⟨r, st.pushed ++ [x], st.popped⟩
    | (r, false) => ⟨r, st.pushed, st.popped⟩
  | RingOp.pop =>
    match st.ring.try_pop with
    | (r, some v) => ⟨r, st.pushed, st.popped ++ [v]⟩
    | (r, none) => ⟨r, st.pushed, st.popped⟩

/-- Run a sequence of operations from the empty buffer. -/
def runRing (α : Type) [Inhabited α] (N : Nat) (ops : List (RingOp α)) : RingRun α N :=
  ops.foldl ringStep ⟨Ring.init α N, [], []⟩

/-! ## Slab pool (`trading::MemoryPool`)

Slots are addressed by index (the source's pointers are
`&storage_[idx]`, in bijection with indices).  The free list is threaded
through the slots via `nextSlot`. -/

/-- Free-list sentinel (`INVALID = 0xFFFFFFFF`). -/
def INVALID : Nat := 4294967295

/-- Pool state: per-slot free-list link, free-list head, allocation count. -/
structure Pool (P : Nat) where
  nextSlot : Nat → Nat
  free_head : Nat
  allocated_count : Nat

/-- Freshly constructed pool: slot `i` links to `i+1`, the last to
`INVALID`, head at 0. -/
def Pool.init (P : Nat) : Pool P :=
  ⟨fun i => if i + 1 < P then i + 1 else INVALID, 0, 0⟩

/-- `allocate()`: pop the free head, or fail when exhausted. -/
def Pool.allocate {P : Nat} (p : Pool P) : Pool P × Option Nat :=
  if p.free_head = INVALID then (p, none)
  else (⟨p.nextSlot, p.nextSlot p.free_head, p.allocated_count + 1⟩, some p.free_head)

/-- `deallocate(ptr)` for a non-null pointer: push the slot onto the free
list. -/
def Pool.deallocate {P : Nat} (p : Pool P) (idx : Nat) : Pool P :=
  ⟨fun i => if i = idx then p.free_head else p.nextSlot i, idx, p.allocated_count - 1⟩

/-- `available()`. -/
def Pool.available {P : Nat} (p : Pool P) : Nat := P - p.allocated_count

/-- Fuel-bounded traversal of the free list from a given head. -/
def freeListAux {P : Nat} (p : Pool P) : Nat → Nat → List Nat
  | 0, _ => []
  | fuel + 1, hd => if hd = INVALID then [] else hd :: freeListAux p fuel (p.nextSlot hd)

/-- The free list as reached from `free_head` (fuel `P` suffices on every
reachable state, where the list is acyclic with at most `P` nodes). -/
def Pool.freeList {P : Nat} (p : Pool P) : List Nat := freeListAux p P p.free_head

/-- One client operation on the pool. -/
inductive PoolOp where
  | alloc
  | free (i : Nat)

/-- Trace state: the pool plus the ghost list of currently allocated slots
(allocation order). -/
structure PoolRun (P : Nat) where
  pool : Pool P
  allocSet : List Nat

/-- Apply one operation under the usage discipline: `free i` is applied
only when `i` is currently allocated (the discipline the claim assumes);
an undisciplined free is ignored. -/
def poolStep {P : Nat} (st : PoolRun P) (op : PoolOp) : PoolRun P :=
  match op with
  | PoolOp.alloc =>
    match st.pool.allocate with
    | (p, some i) => ⟨p, st.allocSet ++ [i]⟩
    | (p, none) => ⟨p, st.allocSet⟩
  | PoolOp.free i =>
    if i ∈ st.allocSet then ⟨st.pool.deallocate i, st.allocSet.erase i⟩
    else st

/-- Run a sequence of operations from the freshly constructed pool. -/
def runPool (P : Nat) (ops : List PoolOp) : PoolRun P :=
  ops.foldl poolStep ⟨Pool.init P, []⟩

/-- The free list of a pool, as a chain of links starting at a given head
and ending at `INVALID`. -/
inductive FreeChain {P : Nat} (p : Pool P) : Nat → List Nat → Prop where
  | nil : FreeChain p INVALID []
  | cons (h : Nat) (rest : List Nat) (hlt : h < P)
      (hnext : FreeChain p (p.nextSlot h) rest) : FreeChain p h (h :: rest)

/-! ## Risk gate (`trading::RiskManager`, `trading::PositionTracker`)

Doubles are modelled as exact rationals; `now_ns()` is passed in as an
explicit parameter.  `PRICE_SCALE = 100`. -/

/-- Result of a pre-trade check (`trading::RiskCheckResult`). -/
inductive RiskCheckResult where
  | approved
  | killSwitchActive
  | positionLimitBreached
  | capitalLimitBreached
  | orderSizeTooLarge
  | orderRateExceeded
  | fatFingerPrice
deriving DecidableEq, Repr

/-- Risk limits (`trading::RiskLimits`). -/
structure RiskLimits where
  max_position_per_instrument : Int
  max_total_position : Int
  max_capital : ℚ
  max_order_size : Nat
  max_orders_per_second : Nat
  max_price_deviation_pct : ℚ
  max_drawdown_pct : ℚ
deriving DecidableEq, Repr

/-- Default limits from `config.hpp`. -/
def defaultRiskLimits : RiskLimits :=
  ⟨10000, 50000, 10000000, 1000, 10000, 5, 2⟩

/-- Order request as seen by the risk gate (`trading::OrderRequest`; the
fields the gate does not read are omitted). -/
structure OrderRequest where
  id : Nat
  instrument : Nat
  side : Side
  price : Int
  quantity : Nat
deriving DecidableEq, Repr

/-- `MAX_INSTRUMENTS`. -/
def MAX_INSTRUMENTS : Nat := 256

/-- Position tracker state (flat arrays indexed by instrument). -/
structure PositionTrackerSt where
  positions : Nat → Int
  avg_prices : Nat → ℚ
  mark_prices : Nat → Int

/-- Zero-initialized tracker. -/
def PositionTrackerSt.init : PositionTrackerSt := ⟨fun _ => 0, fun _ => 0, fun _ => 0⟩

/-- `PositionTracker::position`. -/
def PositionTrackerSt.position (t : PositionTrackerSt) (i : Nat) : Int :=
  if i < MAX_INSTRUMENTS then t.positions i else 0

/-- `PositionTracker::total_absolute_position`. -/
def PositionTrackerSt.total_absolute_position (t : PositionTrackerSt) : Int :=
  ((List.range MAX_INSTRUMENTS).map (fun i => |t.positions i|)).sum

/-- `PositionTracker::capital_used`. -/
def PositionTrackerSt.capital_used (t : PositionTrackerSt) : ℚ :=
  ((List.range MAX_INSTRUMENTS).map (fun i =>
    if t.positions i ≠ 0 then
      |(t.positions i : ℚ)| *
        (if t.mark_prices i > 0 then (t.mark_prices i : ℚ) / 100 else t.avg_prices i)
    else 0)).sum

/-- Risk manager state. -/
structure RiskManager where
  limits : RiskLimits
  positions : PositionTrackerSt
  kill_switch : Bool
  price_deviation_threshold : ℚ
  order_count_in_window : Nat
  rate_window_start : Nat
  peak_pnl : ℚ
  max_drawdown_threshold : ℚ
  checks_performed : Nat
  checks_rejected : Nat

/-- Constructor: precompute the thresholds (`update_precomputed`) and start
the rate window at the given time. -/
def RiskManager.create (limits : RiskLimits) (t0 : Nat) : RiskManager :=
  ⟨limits, PositionTrackerSt.init, false, limits.max_price_deviation_pct / 100,
   0, t0, 0, limits.max_drawdown_pct / 100, 0, 0⟩

/-- Reject with a given result, incrementing `checks_rejected_` as every
failure path of `check_order` does. -/
def RiskManager.rejectWith (rm : RiskManager) (r : RiskCheckResult) :
    RiskManager × RiskCheckResult :=
  ({ rm with checks_rejected := rm.checks_rejected + 1 }, r)

/-- Check 6 of `RiskManager::check_order` (fat finger): skipped when the
market price is not positive; otherwise compare `|price - market|` against
`market * threshold` (multiplication only). -/
def RiskManager.check6_fat_finger (rm : RiskManager) (req : OrderRequest) (mkt : Int) :
    RiskManager × RiskCheckResult :=
  if 0 < mkt then
    if (mkt : ℚ) * rm.price_deviation_threshold < (|req.price - mkt| : ℚ) then
      rm.rejectWith RiskCheckResult.fatFingerPrice
    else (rm, RiskCheckResult.approved)
  else (rm, RiskCheckResult.approved)

/-- Check 5 (order rate): reset the 1-second window if elapsed, count the
order, reject on excess, else fall through to check 6.  The subtraction
`now - rate_window_start` is the source's `uint64_t` subtraction, which on
the monotonic clock (`now ≥ rate_window_start`) equals the `Nat`
subtraction used here. -/
def RiskManager.check5_rate (rm : RiskManager) (req : OrderRequest) (mkt : Int)
    (now : Nat) : RiskManager × RiskCheckResult :=
  let rm1 := if 1000000000 ≤ now - rm.rate_window_start then
               { rm with rate_window_start := now, order_count_in_window := 0 }
             else rm
  let rm2 := { rm1 with order_count_in_window := rm1.order_count_in_window + 1 }
  if rm2.limits.max_orders_per_second < rm2.order_count_in_window then
    rm2.rejectWith RiskCheckResult.orderRateExceeded
  else rm2.check6_fat_finger req mkt

/-- Check 4 (capital): `capital_used + quantity * price / PRICE_SCALE`
against `max_capital`, else fall through. -/
def RiskManager.check4_capital (rm : RiskManager) (req : OrderRequest) (mkt : Int)
    (now : Nat) : RiskManager × RiskCheckResult :=
  if rm.limits.max_capital <
      rm.positions.capital_used + (req.quantity : ℚ) * (req.price : ℚ) / 100 then
    rm.rejectWith RiskCheckResult.capitalLimitBreached
  else rm.check5_rate req mkt now

/-- Projected position after the order (check 3's `new_pos`). -/
def projectedPos (rm : RiskManager) (req : OrderRequest) : Int :=
  if req.side = Side.buy then rm.positions.position req.instrument + (req.quantity : Int)
  else rm.positions.position req.instrument - (req.quantity : Int)

/-- Check 3 (position limits): per-instrument, then aggregate with delta
`|new_pos| - |current_pos|`, else fall through. -/
def RiskManager.check3_position (rm : RiskManager) (req : OrderRequest) (mkt : Int)
    (now : Nat) : RiskManager × RiskCheckResult :=
  if rm.limits.max_position_per_instrument < |projectedPos rm req| then
    rm.rejectWith RiskCheckResult.positionLimitBreached
  else if rm.limits.max_total_position <
      rm.positions.total_absolute_position +
        (|projectedPos rm req| - |rm.positions.position req.instrument|) then
    rm.rejectWith RiskCheckResult.positionLimitBreached
  else rm.check4_capital req mkt now

/-- `RiskManager::check_order`, with `now_ns()` passed as `now`: bump
`checks_performed`, then run the six checks in source order with early
return (each check from number 2 on is its own definition above, giving the
tail of the source function from that check). -/
def RiskManager.check_order (rm0 : RiskManager) (req : OrderRequest) (mkt : Int)
    (now : Nat) : RiskManager × RiskCheckResult :=
  let rm := { rm0 with checks_performed := rm0.checks_performed + 1 }
  if rm.kill_switch then rm.rejectWith RiskCheckResult.killSwitchActive
  else if rm.limits.max_order_size < req.quantity then
    rm.rejectWith RiskCheckResult.orderSizeTooLarge
  else rm.check3_position req mkt now

/-- `RiskManager::activate_kill_switch`. -/
def RiskManager.activate_kill_switch (rm : RiskManager) : RiskManager :=
  { rm with kill_switch := true }

/-- `RiskManager::on_pnl_update`: ratchet the peak, then trip the kill
switch when the drawdown from the peak exceeds the threshold. -/
def RiskManager.on_pnl_update (rm0 : RiskManager) (total_pnl : ℚ) : RiskManager :=
  let rm := if rm0.peak_pnl < total_pnl then { rm0 with peak_pnl := total_pnl } else rm0
  if 0 < rm.peak_pnl ∧ rm.max_drawdown_threshold < (rm.peak_pnl - total_pnl) / rm.peak_pnl then
    rm.activate_kill_switch
  else rm

/-! ## Claim theorems -/

set_option maxRecDepth 8000

/-- C5: matching follows price-time priority.  With resting sells 50@10000
(first), 30@10000 (second), 20@9900, a limit buy of 100 at 10000 produces
exactly the trades (9900,20), (10000,50), (10000,30), in that order: the
better-priced level first, then the 10000 level in FIFO order. -/
theorem C5_price_time_priority :
    ((runBook 0 [BookOp.add 1 Side.sell OrderType.limit 10000 50 0,
                 BookOp.add 2 Side.sell OrderType.limit 10000 30 0,
                 BookOp.add 3 Side.sell OrderType.limit 9900 20 0]).add_order
        4 Side.buy OrderType.limit 10000 100 7).2 =
      [⟨4, 3, 0, 9900, 20, 7⟩, ⟨4, 1, 0, 10000, 50, 7⟩, ⟨4, 2, 0, 10000, 30, 7⟩] := by
  decide

/-- C1 (code bug): on the claim's own scenario — a resting sell of 50 at
10000 and an incoming buy of 100 FOK at 10000 — the call does return an
empty trade sequence and discards the incoming entry, but the book is NOT
restored: the fully consumed resting sell is gone (the ask side ends
empty), because the source rolls back only the incoming side.  Moreover an
FOK that records no trades leaks its entry: it stays in the id map and its
pool slot is not freed. -/
theorem C1_fok_reject_mutates_book :
    (((Book.init 0).applyOp (BookOp.add 1 Side.sell OrderType.limit 10000 50 0)).add_order
        2 Side.buy OrderType.fok 10000 100 9).2 = [] ∧
    (((Book.init 0).applyOp (BookOp.add 1 Side.sell OrderType.limit 10000 50 0)).add_order
        2 Side.buy OrderType.fok 10000 100 9).1.asks = [] ∧
    ((Book.init 0).applyOp (BookOp.add 1 Side.sell OrderType.limit 10000 50 0)).asks ≠ [] ∧
    ((Book.init 0).add_order 9 Side.buy OrderType.fok 10000 100 0).1.ordersMap ≠ [] ∧
    ((Book.init 0).add_order 9 Side.buy OrderType.fok 10000 100 0).1.poolFree =
      ORDER_POOL_SIZE - 1 := by
  decide

/-- C2 (code bug): the book CAN be crossed after an add returns.  With 65
resting sells of quantity 1 at 10000 and an incoming limit buy of 100 at
10000, the matching walk stops at the 64-trade cap and the residual 36
rests as a bid at 10000 while one sell still rests at 10000: a bid price ≥
an ask price. -/
theorem C2_trade_cap_crosses_book :
    pricesOf ((runBook 0 ((List.range 65).map
        (fun i => BookOp.add (i + 1) Side.sell OrderType.limit 10000 1 0))).applyOp
        (BookOp.add 100 Side.buy OrderType.limit 10000 100 0)).bids = [10000] ∧
    pricesOf ((runBook 0 ((List.range 65).map
        (fun i => BookOp.add (i + 1) Side.sell OrderType.limit 10000 1 0))).applyOp
        (BookOp.add 100 Side.buy OrderType.limit 10000 100 0)).asks = [10000] := by
  decide

/-- C3 (code bug): after a matching walk fully consumes one resting order
at a level that still holds another, the level's stored `total_quantity` is
inflated.  With resting sells 50@10000 then 30@10000 and an incoming limit
buy of 50 at 10000, the surviving 10000 level stores `total_quantity = 80`
while the sum of residuals over its (single-entry) list is 30
(`PriceLevel::remove_order` subtracts the post-fill residual, which is 0). -/
theorem C3_level_total_quantity_inflated :
    (findLevel (runBook 0 [BookOp.add 1 Side.sell OrderType.limit 10000 50 0,
                            BookOp.add 2 Side.sell OrderType.limit 10000 30 0,
                            BookOp.add 3 Side.buy OrderType.limit 10000 50 0]).asks
        10000).map PriceLevel.total_quantity = some 80 ∧
    (findLevel (runBook 0 [BookOp.add 1 Side.sell OrderType.limit 10000 50 0,
                            BookOp.add 2 Side.sell OrderType.limit 10000 30 0,
                            BookOp.add 3 Side.buy OrderType.limit 10000 50 0]).asks
        10000).map (fun lv => sumResiduals lv.orders) = some 30 ∧
    (findLevel (runBook 0 [BookOp.add 1 Side.sell OrderType.limit 10000 50 0,
                            BookOp.add 2 Side.sell OrderType.limit 10000 30 0,
                            BookOp.add 3 Side.buy OrderType.limit 10000 50 0]).asks
        10000).map (fun lv => lv.orders.length) = some 1 := by
  decide

/-- C4 counterexample: a single add of a sell at price
`9223372036854775807` (= `askMax`, the int64 maximum) leaves the ask side
nonempty with minimum price `askMax`, yet `best_ask()` returns 0 because
that price collides with the empty-side sentinel. -/
theorem C4_sentinel_counterexample :
    pricesOf (runBook 0 [BookOp.add 1 Side.sell OrderType.limit askMax 10 0]).asks =
      [askMax] ∧
    (runBook 0 [BookOp.add 1 Side.sell OrderType.limit askMax 10 0]).best_ask = 0 ∧
    askMax ≠ 0 := by
  decide

/-- C8: the drawdown monitor trips the kill switch at the claimed numbers
(peak 1000, threshold 2%, P&L report 970 gives a 3% drawdown), and once the
kill switch is active every `check_order` call returns `KillSwitchActive`,
whatever the request, market price, clock and limits. -/
theorem C8_drawdown_kill_and_dominance :
    (∀ rm : RiskManager, rm.peak_pnl = 1000 → rm.max_drawdown_threshold = 2 / 100 →
      (rm.on_pnl_update 970).kill_switch = true) ∧
    (∀ (rm : RiskManager) (req : OrderRequest) (mkt : Int) (now : Nat),
      rm.kill_switch = true →
      (rm.check_order req mkt now).2 = RiskCheckResult.killSwitchActive) := by
  constructor
  · intro rm h1 h2
    simp only [RiskManager.on_pnl_update, RiskManager.activate_kill_switch]
    norm_num [h1, h2]
  · intro rm req mkt now h
    simp only [RiskManager.check_order, RiskManager.rejectWith, h, if_true]

/-- C8 witness: a concrete manager built from the default limits
(`max_drawdown_pct = 2.0`) with peak P&L forced to 1000 trips on 970, and a
concrete kill-switched manager rejects a concrete order. -/
theorem C8_drawdown_kill_and_dominance_witness :
    ((({ RiskManager.create defaultRiskLimits 0 with
          peak_pnl := 1000 } : RiskManager).on_pnl_update 970).kill_switch = true) ∧
    ((({ RiskManager.create defaultRiskLimits 0 with
          kill_switch := true } : RiskManager).check_order
        ⟨1, 0, Side.buy, 15000, 10⟩ 15000 5).2 = RiskCheckResult.killSwitchActive) :=
  ⟨C8_drawdown_kill_and_dominance.1 _ rfl (by norm_num [RiskManager.create, defaultRiskLimits]),
   C8_drawdown_kill_and_dominance.2 _ ⟨1, 0, Side.buy, 15000, 10⟩ 15000 5 rfl⟩

/-- State of the gate after check 6 rejects: only `checks_rejected` moved
(relative to the gate as it entered check 6). -/
theorem check6_fat_finger_frame (rm : RiskManager) (req : OrderRequest) (mkt : Int)
    (h : (rm.check6_fat_finger req mkt).2 = RiskCheckResult.fatFingerPrice) :
    (rm.check6_fat_finger req mkt).1 =
      { rm with checks_rejected := rm.checks_rejected + 1 } := by
  unfold RiskManager.check6_fat_finger at h ⊢
  split_ifs at h ⊢ <;> simp_all [RiskManager.rejectWith]

/-- State after check 5 falls through and check 6 rejects: the rate state
has been advanced by check 5, plus the rejection counter. -/
theorem check5_rate_frame (rm : RiskManager) (req : OrderRequest) (mkt : Int) (now : Nat)
    (h : (rm.check5_rate req mkt now).2 = RiskCheckResult.fatFingerPrice) :
    (rm.check5_rate req mkt now).1 =
      { rm with
          checks_rejected := rm.checks_rejected + 1
          order_count_in_window :=
            (if 1000000000 ≤ now - rm.rate_window_start then 0
             else rm.order_count_in_window) + 1
          rate_window_start :=
            if 1000000000 ≤ now - rm.rate_window_start then now
            else rm.rate_window_start } := by
  unfold RiskManager.check5_rate at h ⊢
  by_cases hr : 1000000000 ≤ now - rm.rate_window_start
  · simp only [if_pos hr] at h ⊢
    split_ifs at h with hx
    · simp [RiskManager.rejectWith] at h
    · rw [if_neg hx, check6_fat_finger_frame _ req mkt h]
  · simp only [if_neg hr] at h ⊢
    split_ifs at h with hx
    · simp [RiskManager.rejectWith] at h
    · rw [if_neg hx, check6_fat_finger_frame _ req mkt h]

/-- State after check 4 falls through, propagated from check 5. -/
theorem check4_capital_frame (rm : RiskManager) (req : OrderRequest) (mkt : Int) (now : Nat)
    (h : (rm.check4_capital req mkt now).2 = RiskCheckResult.fatFingerPrice) :
    (rm.check4_capital req mkt now).1 =
      { rm with
          checks_rejected := rm.checks_rejected + 1
          order_count_in_window :=
            (if 1000000000 ≤ now - rm.rate_window_start then 0
             else rm.order_count_in_window) + 1
          rate_window_start :=
            if 1000000000 ≤ now - rm.rate_window_start then now
            else rm.rate_window_start } := by
  unfold RiskManager.check4_capital at h ⊢
  split_ifs at h with hx
  · simp [RiskManager.rejectWith] at h
  · rw [if_neg hx, check5_rate_frame rm req mkt now h]

/-- State after check 3 falls through, propagated from check 4. -/
theorem check3_position_frame (rm : RiskManager) (req : OrderRequest) (mkt : Int) (now : Nat)
    (h : (rm.check3_position req mkt now).2 = RiskCheckResult.fatFingerPrice) :
    (rm.check3_position req mkt now).1 =
      { rm with
          checks_rejected := rm.checks_rejected + 1
          order_count_in_window :=
            (if 1000000000 ≤ now - rm.rate_window_start then 0
             else rm.order_count_in_window) + 1
          rate_window_start :=
            if 1000000000 ≤ now - rm.rate_window_start then now
            else rm.rate_window_start } := by
  unfold RiskManager.check3_position at h ⊢
  split_ifs at h with hx hy
  · simp [RiskManager.rejectWith] at h
  · simp [RiskManager.rejectWith] at h
  · rw [if_neg hx, if_neg hy, check4_capital_frame rm req mkt now h]

/-- State of a `check_order` call that returns `FatFingerPrice`: everything
is as before except `checks_performed`, `checks_rejected`, and the rate
state advanced by check 5. -/
theorem check_order_fat_finger_state (rm : RiskManager) (req : OrderRequest)
    (mkt : Int) (now : Nat)
    (h : (rm.check_order req mkt now).2 = RiskCheckResult.fatFingerPrice) :
    (rm.check_order req mkt now).1 =
      { rm with
          checks_performed := rm.checks_performed + 1
          checks_rejected := rm.checks_rejected + 1
          order_count_in_window :=
            (if 1000000000 ≤ now - rm.rate_window_start then 0
             else rm.order_count_in_window) + 1
          rate_window_start :=
            if 1000000000 ≤ now - rm.rate_window_start then now
            else rm.rate_window_start } := by
  simp only [RiskManager.check_order] at h ⊢
  split_ifs at h with hx hy
  · simp [RiskManager.rejectWith] at h
  · simp [RiskManager.rejectWith] at h
  · rw [if_neg hx, if_neg hy, check3_position_frame _ req mkt now h]

/-- The freshly constructed tracker carries no positions. -/
theorem init_total_abs : PositionTrackerSt.init.total_absolute_position = 0 := by
  simp [PositionTrackerSt.total_absolute_position, PositionTrackerSt.init]

/-- The freshly constructed tracker uses no capital. -/
theorem init_capital : PositionTrackerSt.init.capital_used = 0 := by
  simp [PositionTrackerSt.capital_used, PositionTrackerSt.init]

/-- The freshly constructed tracker reports position 0 everywhere. -/
theorem init_position (i : Nat) : PositionTrackerSt.init.position i = 0 := by
  simp [PositionTrackerSt.position, PositionTrackerSt.init]

/-- Fat-finger scenario of the spec (scenario 6): market price 15000,
deviation limit 5%, order price 16500 deviates by 10%, so the gate returns
`FatFingerPrice`. -/
theorem fatFingerScenario_result :
    ((RiskManager.create defaultRiskLimits 0).check_order
        ⟨1, 0, Side.buy, 16500, 10⟩ 15000 0).2 = RiskCheckResult.fatFingerPrice := by
  unfold RiskManager.check_order RiskManager.check3_position RiskManager.check4_capital
    RiskManager.check5_rate RiskManager.check6_fat_finger projectedPos
  norm_num [RiskManager.create, defaultRiskLimits, RiskManager.rejectWith,
    init_position, init_total_abs, init_capital]

/-- C9 counterexample: with the default limits (5% deviation), market price
15000 and order price 16500, `check_order` returns `FatFingerPrice` — but
the rate-limiter state is NOT unchanged: the in-window order count has been
incremented from 0 to 1, because the rate check (check 5) runs and consumes
budget before the fat-finger check (check 6). -/
theorem C9_fat_finger_counterexample :
    ((RiskManager.create defaultRiskLimits 0).check_order
        ⟨1, 0, Side.buy, 16500, 10⟩ 15000 0).2 = RiskCheckResult.fatFingerPrice ∧
    ((RiskManager.create defaultRiskLimits 0).check_order
        ⟨1, 0, Side.buy, 16500, 10⟩ 15000 0).1.order_count_in_window = 1 ∧
    (RiskManager.create defaultRiskLimits 0).order_count_in_window = 0 := by
  refine ⟨fatFingerScenario_result, ?_, rfl⟩
  rw [check_order_fat_finger_state _ _ _ _ fatFingerScenario_result]
  simp [RiskManager.create]

/-- C9 (amended): a `check_order` call that returns `FatFingerPrice` leaves
the position tracker and every other field unchanged except the two check
counters and the rate-limiter state, which the earlier rate check has
already advanced: the in-window count is incremented (reset to 1 with the
window start moved to `now` exactly when a full second had elapsed). -/
theorem C9_fat_finger_frame :
    ∀ (rm : RiskManager) (req : OrderRequest) (mkt : Int) (now : Nat),
      (rm.check_order req mkt now).2 = RiskCheckResult.fatFingerPrice →
      (rm.check_order req mkt now).1.positions = rm.positions ∧
      (rm.check_order req mkt now).1.kill_switch = rm.kill_switch ∧
      (rm.check_order req mkt now).1.limits = rm.limits ∧
      (rm.check_order req mkt now).1.peak_pnl = rm.peak_pnl ∧
      (rm.check_order req mkt now).1.max_drawdown_threshold = rm.max_drawdown_threshold ∧
      (rm.check_order req mkt now).1.price_deviation_threshold = rm.price_deviation_threshold ∧
      (rm.check_order req mkt now).1.checks_performed = rm.checks_performed + 1 ∧
      (rm.check_order req mkt now).1.checks_rejected = rm.checks_rejected + 1 ∧
      (¬ 1000000000 ≤ now - rm.rate_window_start →
        (rm.check_order req mkt now).1.order_count_in_window = rm.order_count_in_window + 1 ∧
        (rm.check_order req mkt now).1.rate_window_start = rm.rate_window_start) ∧
      (1000000000 ≤ now - rm.rate_window_start →
        (rm.check_order req mkt now).1.order_count_in_window = 1 ∧
        (rm.check_order req mkt now).1.rate_window_start = now) := by
  intro rm req mkt now h
  rw [check_order_fat_finger_state rm req mkt now h]
  refine ⟨rfl, rfl, rfl, rfl, rfl, rfl, rfl, rfl, ?_, ?_⟩
  · intro hw
    rw [if_neg hw, if_neg hw]
    exact ⟨rfl, rfl⟩
  · intro hw
    rw [if_pos hw, if_pos hw]
    exact ⟨rfl, rfl⟩

/-- C9 witness: the frame theorem applied at the counterexample input. -/
theorem C9_fat_finger_frame_witness :
    ((RiskManager.create defaultRiskLimits 0).check_order
        ⟨1, 0, Side.buy, 16500, 10⟩ 15000 0).1.checks_performed =
      (RiskManager.create defaultRiskLimits 0).checks_performed + 1 ∧
    ((RiskManager.create defaultRiskLimits 0).check_order
        ⟨1, 0, Side.buy, 16500, 10⟩ 15000 0).1.order_count_in_window =
      (RiskManager.create defaultRiskLimits 0).order_count_in_window + 1 :=
  ⟨(C9_fat_finger_frame (RiskManager.create defaultRiskLimits 0)
      ⟨1, 0, Side.buy, 16500, 10⟩ 15000 0 fatFingerScenario_result).2.2.2.2.2.2.1,
   ((C9_fat_finger_frame (RiskManager.create defaultRiskLimits 0)
      ⟨1, 0, Side.buy, 16500, 10⟩ 15000 0
      fatFingerScenario_result).2.2.2.2.2.2.2.2.1 (by decide)).1⟩

/-- C10: when the cached best-bid quantity is nonzero and a limit buy rests
at exactly the current best bid (the ask side not being marketable against
it), `best_bid_quantity()` still returns the previous cached value — the
new order's quantity is not folded in, because `add_to_book` refreshes the
cache only for a strictly better price or a zero cached quantity; and
symmetrically for a limit sell resting at the current best ask. -/
theorem C10_cached_best_qty_not_refreshed :
    (∀ (b : Book) (id : Nat) (price : Int) (qty ts : Nat),
      b.best_bid_quantity ≠ 0 → price = b.bestBidC →
      headPriceAbove b.asks price = true →
      (b.add_order id Side.buy OrderType.limit price qty ts).1.best_bid_quantity =
        b.best_bid_quantity ∧
      (b.add_order id Side.buy OrderType.limit price qty ts).1.best_bid = b.best_bid) ∧
    (∀ (b : Book) (id : Nat) (price : Int) (qty ts : Nat),
      b.best_ask_quantity ≠ 0 → price = b.bestAskC →
      headPriceBelow b.bids price = true →
      (b.add_order id Side.sell OrderType.limit price qty ts).1.best_ask_quantity =
        b.best_ask_quantity ∧
      (b.add_order id Side.sell OrderType.limit price qty ts).1.best_ask = b.best_ask) := by
  constructor
  · intro b id price qty ts hqty hprice hask
    by_cases hp : b.poolFree = 0
    · simp [Book.add_order, if_pos hp]
    · have hwalk : ∀ s0 : WalkSt,
          walkLevels b.instrument
            ⟨id, b.instrument, Side.buy, OrderType.limit, OrderStatus.osNew, price, qty, 0, ts⟩
            true b.asks s0 = (b.asks, s0) := by
        intro s0
        rcases hasks : b.asks with _ | ⟨lv, rest⟩
        · simp [walkLevels]
        · have hlt : price < lv.price := by
            rw [hasks] at hask
            simpa [headPriceAbove] using hask
          simp [walkLevels, MAX_TRADES_PER_MATCH, priceBreak, hlt]
      simp only [Book.add_order, if_neg hp, Book.match_order]
      rw [hwalk]
      by_cases hq : qty = 0
      · subst hq
        simp [Book.updateBestAsk, Book.best_bid_quantity, Book.best_bid]
        constructor
        · rcases b.asks with _ | ⟨lv, rest⟩ <;> rfl
        · rcases b.asks with _ | ⟨lv, rest⟩ <;> rfl
      · have hqty' : b.bestBidQtyC ≠ 0 := hqty
        rcases hasks2 : b.asks with _ | ⟨lv, rest⟩ <;>
          simp [hasks2, hq, Nat.pos_of_ne_zero hq, Book.add_to_book, Book.updateBestAsk,
            hprice, lt_irrefl, hqty', Book.best_bid_quantity, Book.best_bid]
  · intro b id price qty ts hqty hprice hbid
    by_cases hp : b.poolFree = 0
    · simp [Book.add_order, if_pos hp]
    · have hwalk : ∀ s0 : WalkSt,
          walkLevels b.instrument
            ⟨id, b.instrument, Side.sell, OrderType.limit, OrderStatus.osNew, price, qty, 0, ts⟩
            true b.bids s0 = (b.bids, s0) := by
        intro s0
        rcases hbids : b.bids with _ | ⟨lv, rest⟩
        · simp [walkLevels]
        · have hlt : lv.price < price := by
            rw [hbids] at hbid
            simpa [headPriceBelow] using hbid
          simp [walkLevels, MAX_TRADES_PER_MATCH, priceBreak, hlt]
      simp only [Book.add_order, if_neg hp, Book.match_order]
      rw [hwalk]
      by_cases hq : qty = 0
      · subst hq
        simp [Book.updateBestBid, Book.best_ask_quantity, Book.best_ask]
        constructor
        · rcases b.bids with _ | ⟨lv, rest⟩ <;> rfl
        · rcases b.bids with _ | ⟨lv, rest⟩ <;> rfl
      · have hqty' : b.bestAskQtyC ≠ 0 := hqty
        rcases hbids2 : b.bids with _ | ⟨lv, rest⟩ <;>
          simp [hbids2, hq, Nat.pos_of_ne_zero hq, Book.add_to_book, Book.updateBestBid,
            hprice, lt_irrefl, hqty', Book.best_ask_quantity, Book.best_ask]

/-- C10 witness: on a book with a resting bid of 40 at 10000 and a resting
ask of 5 at 10100, adding a limit buy of 60 at 10000 leaves
`best_bid_quantity()` at 40, and adding a limit sell of 7 at 10100 leaves
`best_ask_quantity()` at 5. -/
theorem C10_cached_best_qty_not_refreshed_witness :
    ((runBook 0 [BookOp.add 1 Side.buy OrderType.limit 10000 40 0,
                 BookOp.add 2 Side.sell OrderType.limit 10100 5 0]).add_order
        3 Side.buy OrderType.limit 10000 60 9).1.best_bid_quantity =
      (runBook 0 [BookOp.add 1 Side.buy OrderType.limit 10000 40 0,
                  BookOp.add 2 Side.sell OrderType.limit 10100 5 0]).best_bid_quantity ∧
    ((runBook 0 [BookOp.add 1 Side.buy OrderType.limit 10000 40 0,
                 BookOp.add 2 Side.sell OrderType.limit 10100 5 0]).add_order
        4 Side.sell OrderType.limit 10100 7 9).1.best_ask_quantity =
      (runBook 0 [BookOp.add 1 Side.buy OrderType.limit 10000 40 0,
                  BookOp.add 2 Side.sell OrderType.limit 10100 5 0]).best_ask_quantity :=
  ⟨(C10_cached_best_qty_not_refreshed.1 _ 3 10000 60 9
      (by decide) (by decide) (by decide)).1,
   (C10_cached_best_qty_not_refreshed.2 _ 4 10100 7 9
      (by decide) (by decide) (by decide)).1⟩

/-- A free chain only reads the links of its own nodes. -/
theorem freeChain_ext {P : Nat} {p p' : Pool P} {hd : Nat} {fl : List Nat}
    (hc : FreeChain p hd fl) (hsame : ∀ j ∈ fl, p'.nextSlot j = p.nextSlot j) :
    FreeChain p' hd fl := by
  induction hc with
  | nil => exact FreeChain.nil
  | cons h rest hlt hnext ih =>
    refine FreeChain.cons h rest hlt ?_
    rw [hsame h (by simp)]
    exact ih (fun j hj => hsame j (by simp [hj]))

/-- An empty chain starts at the sentinel. -/
theorem freeChain_nil_head {P : Nat} {p : Pool P} {hd : Nat}
    (hc : FreeChain p hd ([] : List Nat)) : hd = INVALID := by
  cases hc
  rfl

/-- Inversion of a nonempty chain. -/
theorem freeChain_cons_inv {P : Nat} {p : Pool P} {hd x : Nat} {rest : List Nat}
    (hc : FreeChain p hd (x :: rest)) :
    hd = x ∧ x < P ∧ FreeChain p (p.nextSlot x) rest := by
  cases hc
  exact ⟨rfl, by assumption, by assumption⟩

/-- The fresh pool's free list, as a tail segment. -/
theorem init_freeChain_aux (P : Nat) :
    ∀ n k, k + n = P →
      FreeChain (Pool.init P) (if 0 < n then k else INVALID) (List.range' k n) := by
  intro n
  induction n with
  | zero => intro k hk; simpa using FreeChain.nil
  | succ m ih =>
    intro k hk
    rw [List.range'_succ]
    simp only [Nat.zero_lt_succ, if_pos]
    refine FreeChain.cons k _ (by omega) ?_
    have hnext : (Pool.init P).nextSlot k = if 0 < m then k + 1 else INVALID := by
      simp only [Pool.init]
      rcases Nat.eq_zero_or_pos m with hm | hm
      · subst hm
        simp [if_neg (by omega : ¬ k + 1 < P)]
      · simp [if_pos (by omega : k + 1 < P), hm]
    rw [hnext]
    exact ih (k + 1) (by omega)

/-- The fresh pool's free list is exactly `range P`. -/
theorem init_freeChain (P : Nat) (hP0 : 0 < P) :
    FreeChain (Pool.init P) (Pool.init P).free_head (List.range P) := by
  have h := init_freeChain_aux P P 0 (by omega)
  rw [if_pos hP0] at h
  rw [List.range_eq_range']
  exact h

/-- Internal invariant of a pool run: some list `fl` is the free chain, and
`fl` together with the ghost allocation list is a permutation of all slots;
`allocated_count` tracks the ghost list. -/
def PoolInv {P : Nat} (st : PoolRun P) : Prop :=
  ∃ fl, FreeChain st.pool st.pool.free_head fl ∧
    (fl ++ st.allocSet).Perm (List.range P) ∧
    st.pool.allocated_count = st.allocSet.length

/-- Every operation preserves the pool invariant. -/
theorem poolStep_inv {P : Nat} (hP : P < INVALID) (st : PoolRun P) (op : PoolOp)
    (h : PoolInv st) : PoolInv (poolStep st op) := by
  obtain ⟨fl, hc, hperm, hcount⟩ := h
  cases op with
  | alloc =>
    rcases fl with _ | ⟨x, rest⟩
    · have hh : st.pool.free_head = INVALID := freeChain_nil_head hc
      simp only [poolStep, Pool.allocate, if_pos hh]
      exact ⟨[], hc, hperm, hcount⟩
    · obtain ⟨hhd, hxP, hrest⟩ := freeChain_cons_inv hc
      have hh : ¬ st.pool.free_head = INVALID := by omega
      simp only [poolStep, Pool.allocate, if_neg hh]
      refine ⟨rest, ?_, ?_, ?_⟩
      · rw [hhd]
        exact freeChain_ext hrest (fun j _ => rfl)
      · rw [hhd]
        refine List.Perm.trans ?_ hperm
        have h1 : ((rest ++ st.allocSet) ++ [x]).Perm ([x] ++ (rest ++ st.allocSet)) :=
          List.perm_append_comm
        rw [← List.append_assoc] at *
        exact h1
      · show st.pool.allocated_count + 1 = (st.allocSet ++ [st.pool.free_head]).length
        simp [hcount]
  | free i =>
    by_cases hi : i ∈ st.allocSet
    · simp only [poolStep, if_pos hi]
      have hiP : i < P := by
        have hmem := hperm.mem_iff.mp (List.mem_append.mpr (Or.inr hi))
        exact List.mem_range.mp hmem
      have hnodup : (fl ++ st.allocSet).Nodup :=
        hperm.nodup_iff.mpr (List.nodup_range P)
      have hdisj : fl.Disjoint st.allocSet := (List.nodup_append.mp hnodup).2.2
      have hifl : i ∉ fl := fun hmem => hdisj hmem hi
      refine ⟨i :: fl, ?_, ?_, ?_⟩
      · refine FreeChain.cons i fl hiP ?_
        have hni : (st.pool.deallocate i).nextSlot i = st.pool.free_head := by
          simp [Pool.deallocate]
        rw [hni]
        refine freeChain_ext hc (fun j hj => ?_)
        have hji : j ≠ i := fun hji => hifl (hji ▸ hj)
        simp [Pool.deallocate, hji]
      · have ha : (fl ++ (i :: st.allocSet.erase i)).Perm
            (i :: (fl ++ st.allocSet.erase i)) := List.perm_middle
        have hb : (fl ++ st.allocSet).Perm (fl ++ (i :: st.allocSet.erase i)) :=
          List.Perm.append_left fl (List.perm_cons_erase hi)
        exact ((ha.symm.trans hb.symm).trans hperm)
      · show st.pool.allocated_count - 1 = (st.allocSet.erase i).length
        rw [List.length_erase_of_mem hi, hcount]
    · simpa only [poolStep, if_neg hi] using ⟨fl, hc, hperm, hcount⟩


/-- With enough fuel, the traversal reads off exactly the chain. -/
theorem freeListAux_eq {P : Nat} {p : Pool P} {hd : Nat} {fl : List Nat}
    (hP : P < INVALID) (hc : FreeChain p hd fl) :
    ∀ fuel, fl.length ≤ fuel → freeListAux p fuel hd = fl := by
  induction hc with
  | nil =>
    intro fuel _
    cases fuel with
    | zero => rfl
    | succ f => simp [freeListAux]
  | cons h rest hlt hnext ih =>
    intro fuel hfuel
    cases fuel with
    | zero => simp at hfuel
    | succ f =>
      have hne : h ≠ INVALID := by omega
      simp only [freeListAux, if_neg hne]
      rw [ih f (by simpa using hfuel)]

/-- The invariant holds after any run from the fresh pool. -/
theorem runPool_inv (P : Nat) (hP0 : 0 < P) (hP : P < INVALID) (ops : List PoolOp) :
    PoolInv (runPool P ops) := by
  have hinit : PoolInv (⟨Pool.init P, []⟩ : PoolRun P) :=
    ⟨List.range P, init_freeChain P hP0, by simp, rfl⟩
  unfold runPool
  generalize (⟨Pool.init P, []⟩ : PoolRun P) = st at hinit
  induction ops generalizing st with
  | nil => simpa using hinit
  | cons op rest ih =>
    simp only [List.foldl_cons]
    exact ih _ (poolStep_inv hP st op hinit)

/-- C7: under the usage discipline (modelled by the runner, which applies a
free only to a currently allocated slot), at all times
`allocated() + available() == P`, the free list holds exactly the
unallocated slots, and deallocating a slot then immediately allocating
returns the identical slot (hence the identical pointer
`&storage_[idx]`). -/
theorem C7_slab_pool (P : Nat) (hP0 : 0 < P) (hP : P < INVALID) (ops : List PoolOp) :
    (runPool P ops).pool.allocated_count + (runPool P ops).pool.available = P ∧
    (∀ i, i < P →
      (i ∈ (runPool P ops).pool.freeList ↔ i ∉ (runPool P ops).allocSet)) ∧
    (∀ i, i ∈ (runPool P ops).allocSet →
      ((runPool P ops).pool.deallocate i).allocate.2 = some i) := by
  obtain ⟨fl, hc, hperm, hcount⟩ := runPool_inv P hP0 hP ops
  have hlen : fl.length + (runPool P ops).allocSet.length = P := by
    have := hperm.length_eq
    simpa [List.length_append] using this
  have hnodup : (fl ++ (runPool P ops).allocSet).Nodup :=
    hperm.nodup_iff.mpr (List.nodup_range P)
  have hdisj : fl.Disjoint (runPool P ops).allocSet := (List.nodup_append.mp hnodup).2.2
  have hmemP : ∀ i, i ∈ (runPool P ops).allocSet → i < P := by
    intro i hi
    exact List.mem_range.mp (hperm.mem_iff.mp (List.mem_append.mpr (Or.inr hi)))
  refine ⟨?_, ?_, ?_⟩
  · show (runPool P ops).pool.allocated_count +
      (P - (runPool P ops).pool.allocated_count) = P
    omega
  · intro i hiP
    have hfl : (runPool P ops).pool.freeList = fl :=
      freeListAux_eq hP hc P (by omega)
    rw [hfl]
    constructor
    · intro hin hall
      exact hdisj hin hall
    · intro hout
      have : i ∈ fl ++ (runPool P ops).allocSet :=
        hperm.mem_iff.mpr (List.mem_range.mpr hiP)
      rcases List.mem_append.mp this with h | h
      · exact h
      · exact absurd h hout
  · intro i hi
    have hiP : i < P := hmemP i hi
    have hne : i ≠ INVALID := by omega
    simp [Pool.deallocate, Pool.allocate, hne]

/-- C7 witness: a pool of 3 slots after alloc, alloc, free 0, alloc holds
slots 0 and 1 allocated, slot 2 free, and conserves its capacity. -/
theorem C7_slab_pool_witness :
    (runPool 3 [PoolOp.alloc, PoolOp.alloc, PoolOp.free 0, PoolOp.alloc]).pool.allocated_count +
      (runPool 3 [PoolOp.alloc, PoolOp.alloc, PoolOp.free 0, PoolOp.alloc]).pool.available = 3 ∧
    (2 ∈ (runPool 3 [PoolOp.alloc, PoolOp.alloc, PoolOp.free 0, PoolOp.alloc]).pool.freeList ↔
      2 ∉ (runPool 3 [PoolOp.alloc, PoolOp.alloc, PoolOp.free 0, PoolOp.alloc]).allocSet) ∧
    ((runPool 3 [PoolOp.alloc, PoolOp.alloc, PoolOp.free 0, PoolOp.alloc]).pool.deallocate
        1).allocate.2 = some 1 :=
  ⟨(C7_slab_pool 3 (by decide) (by decide) _).1,
   (C7_slab_pool 3 (by decide) (by decide) _).2.1 2 (by decide),
   (C7_slab_pool 3 (by decide) (by decide) _).2.2 1 (by decide)⟩


/-- Split form of `a % N` for `a < 2N`. -/
theorem mod_two_split (a N : Nat) (_h0 : 0 < N) (h : a < 2 * N) :
    (a < N ∧ a % N = a) ∨ (N ≤ a ∧ a % N = a - N) := by
  by_cases hx : a < N
  · exact Or.inl ⟨hx, Nat.mod_eq_of_lt hx⟩
  · refine Or.inr ⟨by omega, ?_⟩
    rw [Nat.mod_eq_sub_mod (by omega)]
    exact Nat.mod_eq_of_lt (by omega)

/-- The number of items is the length of the contents. -/
theorem ring_contents_length {α : Type} {N : Nat} (r : Ring α N) :
    r.contents.length = r.size := by
  simp [Ring.contents]

/-- Successful push: the head is unchanged, the tail advances, and the
contents gain the pushed value at the back. -/
theorem ring_push_not_full {α : Type} {N : Nat} (r : Ring α N) (x : α)
    (hN : 0 < N) (hh : r.head < N) (ht : r.tail < N)
    (hc : ¬ (r.tail + 1) % N = r.head) :
    (r.try_push x).2 = true ∧
    (r.try_push x).1.head = r.head ∧ (r.try_push x).1.tail = (r.tail + 1) % N ∧
    (r.try_push x).1.contents = r.contents ++ [x] := by
  have hpush : r.try_push x =
      (⟨fun i => if i = r.tail then x else r.buf i, r.head, (r.tail + 1) % N⟩, true) := by
    simp [Ring.try_push, hc]
  have hA : (r.tail + 1) % N < N := Nat.mod_lt _ hN
  have hS : (r.tail + N - r.head) % N < N := Nat.mod_lt _ hN
  have hsz : r.size = (r.tail + N - r.head) % N := rfl
  have hsz' : ((r.tail + 1) % N + N - r.head) % N = r.size + 1 := by
    rw [hsz]
    rcases mod_two_split (r.tail + 1) N hN (by omega) with ⟨h1, e1⟩ | ⟨h1, e1⟩ <;>
      rcases mod_two_split (r.tail + N - r.head) N hN (by omega) with ⟨h2, e2⟩ | ⟨h2, e2⟩ <;>
      rcases mod_two_split ((r.tail + 1) % N + N - r.head) N hN (by omega)
        with ⟨h3, e3⟩ | ⟨h3, e3⟩ <;>
      omega
  refine ⟨by rw [hpush], by rw [hpush], by rw [hpush], ?_⟩
  rw [hpush]
  show (List.range (((r.tail + 1) % N + N - r.head) % N)).map _ = _
  rw [hsz']
  rw [List.range_succ, List.map_append]
  have hmid : ∀ i < r.size, (r.head + i) % N ≠ r.tail := by
    intro i hi
    rw [hsz] at hi
    rcases mod_two_split (r.head + i) N hN (by omega) with ⟨h1, e1⟩ | ⟨h1, e1⟩ <;>
      rcases mod_two_split (r.tail + N - r.head) N hN (by omega) with ⟨h2, e2⟩ | ⟨h2, e2⟩ <;>
      omega
  have hlast : (r.head + r.size) % N = r.tail := by
    rw [hsz]
    rcases mod_two_split (r.tail + N - r.head) N hN (by omega) with ⟨h2, e2⟩ | ⟨h2, e2⟩ <;>
      rcases mod_two_split (r.head + (r.tail + N - r.head) % N) N hN (by omega)
        with ⟨h3, e3⟩ | ⟨h3, e3⟩ <;>
      omega
  congr 1
  · refine List.map_congr_left (fun i hi => ?_)
    have hi' : i < r.size := List.mem_range.mp hi
    simp only [if_neg (hmid i hi')]
  · simp [hlast]

/-- Successful pop: the tail is unchanged, the head advances, and the old
contents are the popped value followed by the new contents. -/
theorem ring_pop_not_empty {α : Type} {N : Nat} (r : Ring α N)
    (hN : 0 < N) (hh : r.head < N) (ht : r.tail < N)
    (hc : ¬ r.head = r.tail) :
    (r.try_pop).2 = some (r.buf r.head) ∧
    (r.try_pop).1.head = (r.head + 1) % N ∧ (r.try_pop).1.tail = r.tail ∧
    r.contents = r.buf r.head :: (r.try_pop).1.contents := by
  have hpop : r.try_pop = (⟨r.buf, (r.head + 1) % N, r.tail⟩, some (r.buf r.head)) := by
    simp [Ring.try_pop, hc]
  have hA : (r.head + 1) % N < N := Nat.mod_lt _ hN
  have hsz : r.size = (r.tail + N - r.head) % N := rfl
  have hsz' : r.size = (r.tail + N - (r.head + 1) % N) % N + 1 := by
    rw [hsz]
    rcases mod_two_split (r.head + 1) N hN (by omega) with ⟨h1, e1⟩ | ⟨h1, e1⟩ <;>
      rcases mod_two_split (r.tail + N - r.head) N hN (by omega) with ⟨h2, e2⟩ | ⟨h2, e2⟩ <;>
      rcases mod_two_split (r.tail + N - (r.head + 1) % N) N hN (by omega)
        with ⟨h3, e3⟩ | ⟨h3, e3⟩ <;>
      omega
  refine ⟨by rw [hpop], by rw [hpop], by rw [hpop], ?_⟩
  rw [hpop]
  show _ = r.buf r.head :: (List.range ((r.tail + N - (r.head + 1) % N) % N)).map _
  rw [show r.contents = (List.range r.size).map
      (fun i => r.buf ((r.head + i) % N)) from rfl]
  rw [hsz', List.range_succ_eq_map, List.map_cons, List.map_map]
  congr 1
  · show r.buf ((r.head + 0) % N) = r.buf r.head
    rw [Nat.add_zero, Nat.mod_eq_of_lt hh]
  · refine List.map_congr_left (fun i hi => ?_)
    show r.buf ((r.head + (i + 1)) % N) = r.buf (((r.head + 1) % N + i) % N)
    rw [Nat.mod_add_mod, show r.head + 1 + i = r.head + (i + 1) from by omega]

/-- Trace invariant: masked indices in range, and the pushed values are the
popped values followed by the current contents. -/
def RingGood {α : Type} {N : Nat} (st : RingRun α N) : Prop :=
  st.ring.head < N ∧ st.ring.tail < N ∧
    st.popped ++ st.ring.contents = st.pushed

/-- Every producer/consumer operation preserves the trace invariant. -/
theorem ringStep_good {α : Type} {N : Nat} (hN : 0 < N) (st : RingRun α N)
    (op : RingOp α) (h : RingGood st) : RingGood (ringStep st op) := by
  obtain ⟨hh, ht, hfifo⟩ := h
  cases op with
  | push x =>
    by_cases hc : (st.ring.tail + 1) % N = st.ring.head
    · have htp : st.ring.try_push x = (st.ring, false) := by
        simp [Ring.try_push, hc]
      simpa only [ringStep, htp] using ⟨hh, ht, hfifo⟩
    · obtain ⟨h1, h2, h3, h4⟩ := ring_push_not_full st.ring x hN hh ht hc
      rcases hp : st.ring.try_push x with ⟨r1, b⟩
      rw [hp] at h1 h2 h3 h4
      subst h1
      simp only [ringStep]
      rw [hp]
      refine ⟨by rw [h2]; exact hh, by rw [h3]; exact Nat.mod_lt _ hN, ?_⟩
      show st.popped ++ r1.contents = st.pushed ++ [x]
      rw [h4, ← List.append_assoc, hfifo]
  | pop =>
    by_cases hc : st.ring.head = st.ring.tail
    · have htp : st.ring.try_pop = (st.ring, none) := by
        simp [Ring.try_pop, hc]
      simpa only [ringStep, htp] using ⟨hh, ht, hfifo⟩
    · obtain ⟨h1, h2, h3, h4⟩ := ring_pop_not_empty st.ring hN hh ht hc
      rcases hp : st.ring.try_pop with ⟨r1, v⟩
      rw [hp] at h1 h2 h3 h4
      subst h1
      simp only [ringStep]
      rw [hp]
      refine ⟨by rw [h2]; exact Nat.mod_lt _ hN, by rw [h3]; exact ht, ?_⟩
      show (st.popped ++ [st.ring.buf st.ring.head]) ++ r1.contents = st.pushed
      rw [List.append_assoc, List.singleton_append, ← h4, hfifo]

/-- The trace invariant holds after any run from the empty buffer. -/
theorem runRing_good {α : Type} [Inhabited α] (N : Nat) (hN : 0 < N)
    (ops : List (RingOp α)) : RingGood (runRing α N ops) := by
  have hinit : RingGood (⟨Ring.init α N, [], []⟩ : RingRun α N) := by
    refine ⟨hN, hN, ?_⟩
    show [] ++ (Ring.init α N).contents = []
    have : (Ring.init α N).size = 0 := by
      show (0 + N - 0) % N = 0
      simp
    simp [Ring.contents, this]
  unfold runRing
  generalize (⟨Ring.init α N, [], []⟩ : RingRun α N) = st at hinit
  induction ops generalizing st with
  | nil => simpa using hinit
  | cons op rest ih =>
    simp only [List.foldl_cons]
    exact ih _ (ringStep_good hN st op hinit)

/-- C6: the SPSC ring buffer of power-of-two capacity `N`, as a sequential
state machine run from the empty buffer: `try_push` fails exactly when the
buffer holds `N - 1` items (usable capacity `N - 1`), `try_pop` fails
exactly when it is empty, and for every interleaved sequence of operations
the values popped followed by the values still held are exactly the values
successfully pushed, in order. -/
theorem C6_spsc_ring (N : Nat) (hpow : ∃ k, N = 2 ^ k) (hN : 0 < N)
    (ops : List (RingOp Nat)) (x : Nat) :
    (((runRing Nat N ops).ring.try_push x).2 = false ↔
      (runRing Nat N ops).ring.contents.length = N - 1) ∧
    (((runRing Nat N ops).ring.try_pop).2 = none ↔
      (runRing Nat N ops).ring.contents.length = 0) ∧
    (runRing Nat N ops).popped ++ (runRing Nat N ops).ring.contents =
      (runRing Nat N ops).pushed := by
  obtain ⟨hh, ht, hfifo⟩ := runRing_good N hN ops
  set r := (runRing Nat N ops).ring with hr
  have hlen : r.contents.length = (r.tail + N - r.head) % N := ring_contents_length r
  refine ⟨?_, ?_, hfifo⟩
  · have hpush : (r.try_push x).2 = false ↔ (r.tail + 1) % N = r.head := by
      simp only [Ring.try_push]
      split_ifs with hx <;> simp [hx]
    rw [hpush, hlen]
    rcases mod_two_split (r.tail + 1) N hN (by omega) with ⟨h1, e1⟩ | ⟨h1, e1⟩ <;>
      rcases mod_two_split (r.tail + N - r.head) N hN (by omega) with ⟨h2, e2⟩ | ⟨h2, e2⟩ <;>
      (constructor <;> intro hx <;> omega)
  · have hpop : (r.try_pop).2 = none ↔ r.head = r.tail := by
      simp only [Ring.try_pop]
      split_ifs with hx <;> simp [hx]
    rw [hpop, hlen]
    rcases mod_two_split (r.tail + N - r.head) N hN (by omega) with ⟨h2, e2⟩ | ⟨h2, e2⟩ <;>
      (constructor <;> intro hx <;> omega)

/-- C6 witness: capacity 4, operations push 1, push 2, pop, push 3; the
buffer holds [2, 3], has popped [1], and is neither full nor empty. -/
theorem C6_spsc_ring_witness :
    (((runRing Nat 4 [RingOp.push 1, RingOp.push 2, RingOp.pop,
        RingOp.push 3]).ring.try_push 9).2 = false ↔
      (runRing Nat 4 [RingOp.push 1, RingOp.push 2, RingOp.pop,
        RingOp.push 3]).ring.contents.length = 4 - 1) ∧
    (((runRing Nat 4 [RingOp.push 1, RingOp.push 2, RingOp.pop,
        RingOp.push 3]).ring.try_pop).2 = none ↔
      (runRing Nat 4 [RingOp.push 1, RingOp.push 2, RingOp.pop,
        RingOp.push 3]).ring.contents.length = 0) ∧
    (runRing Nat 4 [RingOp.push 1, RingOp.push 2, RingOp.pop,
        RingOp.push 3]).popped ++
      (runRing Nat 4 [RingOp.push 1, RingOp.push 2, RingOp.pop,
        RingOp.push 3]).ring.contents =
      (runRing Nat 4 [RingOp.push 1, RingOp.push 2, RingOp.pop,
        RingOp.push 3]).pushed :=
  C6_spsc_ring 4 ⟨2, rfl⟩ (by decide) [RingOp.push 1, RingOp.push 2, RingOp.pop, RingOp.push 3] 9



/-- Bid levels are strictly descending in price (`std::map` with
`std::greater`). -/
def bidSorted (ls : List PriceLevel) : Prop :=
  (pricesOf ls).Pairwise (fun a b => b < a)

/-- Ask levels are strictly ascending in price. -/
def askSorted (ls : List PriceLevel) : Prop :=
  (pricesOf ls).Pairwise (fun a b => a < b)

/-- Well-formedness of one resting level: nonempty, the stored aggregate at
least the sum of residuals (the source only ever inflates it, see C3), and
every resting order strictly unfilled. -/
def levelOk (lv : PriceLevel) : Prop :=
  lv.orders ≠ [] ∧ sumResiduals lv.orders ≤ lv.total_quantity ∧
    ∀ e ∈ lv.orders, e.filled_quantity < e.quantity

/-- All levels of a side well-formed. -/
def levelsOk (ls : List PriceLevel) : Prop := ∀ lv ∈ ls, levelOk lv

/-- All ask prices below the sentinel. -/
def asksBounded (ls : List PriceLevel) : Prop := ∀ lv ∈ ls, lv.price < askMax

/-- The cached best bid mirrors the head of the bid map. -/
def bidCacheOk (b : Book) : Prop :=
  (b.bids = [] → b.bestBidC = 0 ∧ b.bestBidQtyC = 0) ∧
  (∀ lv rest, b.bids = lv :: rest → b.bestBidC = lv.price ∧ b.bestBidQtyC ≠ 0)

/-- The cached best ask mirrors the head of the ask map. -/
def askCacheOk (b : Book) : Prop :=
  (b.asks = [] → b.bestAskC = askMax ∧ b.bestAskQtyC = 0) ∧
  (∀ lv rest, b.asks = lv :: rest → b.bestAskC = lv.price ∧ b.bestAskQtyC ≠ 0)

/-- Inductive invariant of the order book. -/
structure BookInv (b : Book) : Prop where
  bsort : bidSorted b.bids
  asort : askSorted b.asks
  bok : levelsOk b.bids
  aok : levelsOk b.asks
  abound : asksBounded b.asks
  bcache : bidCacheOk b
  acache : askCacheOk b

/-- A well-formed level has a nonzero stored aggregate. -/
theorem levelOk_total_pos {lv : PriceLevel} (h : levelOk lv) :
    lv.total_quantity ≠ 0 := by
  obtain ⟨hne, hsum, hres⟩ := h
  rcases ho : lv.orders with _ | ⟨e, rest⟩
  · exact absurd ho hne
  · have he : e.filled_quantity < e.quantity := hres e (by rw [ho]; simp)
    have : sumResiduals lv.orders = (e.quantity - e.filled_quantity) + sumResiduals rest := by
      rw [ho]; simp [sumResiduals]
    omega

/-- Residuals over an appended singleton. -/
theorem sumResiduals_append (l : List OBEntry) (e : OBEntry) :
    sumResiduals (l ++ [e]) = sumResiduals l + (e.quantity - e.filled_quantity) := by
  simp [sumResiduals]

/-- The inner matching loop keeps the level's orders unfilled-positive and
the stored aggregate at least the sum of residuals. -/
theorem consumeOrders_ok (instr : Nat) (inc : OBEntry) :
    ∀ (orders : List OBEntry) (tq oc : Nat) (s : WalkSt),
      (∀ e ∈ orders, e.filled_quantity < e.quantity) →
      sumResiduals orders ≤ tq →
      (∀ e ∈ (consumeOrders instr inc orders tq oc s).1,
        e.filled_quantity < e.quantity) ∧
      sumResiduals (consumeOrders instr inc orders tq oc s).1 ≤
        (consumeOrders instr inc orders tq oc s).2.1 := by
  intro orders
  induction orders with
  | nil =>
    intro tq oc s _ _
    simp [consumeOrders, sumResiduals]
  | cons resting rest ih =>
    intro tq oc s hres hsum
    by_cases htc : s.tc < MAX_TRADES_PER_MATCH
    · by_cases hrem : inc.quantity - s.incFilled = 0
      · simp only [consumeOrders, if_pos htc, if_pos hrem]
        exact ⟨hres, hsum⟩
      · have hsum' : sumResiduals (resting :: rest) =
            (resting.quantity - resting.filled_quantity) + sumResiduals rest := by
          simp [sumResiduals]
        by_cases hfull : resting.quantity ≤ resting.filled_quantity +
            min (inc.quantity - s.incFilled) (resting.quantity - resting.filled_quantity)
        · simp only [consumeOrders, if_pos htc, if_neg hrem, if_pos hfull]
          refine ih _ _ _ (fun e he => hres e (by simp [he])) ?_
          have h1 : sumResiduals rest ≤ tq := by omega
          split_ifs <;> omega
        · simp only [consumeOrders, if_pos htc, if_neg hrem, if_neg hfull]
          have hfl := min_le_right (inc.quantity - s.incFilled)
            (resting.quantity - resting.filled_quantity)
          refine ⟨?_, ?_⟩
          · intro e he
            rcases List.mem_cons.mp he with h | h
            · rw [h]
              simp only []
              omega
            · exact hres e (by simp [h])
          · show (resting.quantity - (resting.filled_quantity + _)) + sumResiduals rest ≤ _
            omega
    · simp only [consumeOrders, if_neg htc]
      exact ⟨hres, hsum⟩

/-- The outer walk only erases levels or rewrites the first surviving one
in place: its price list is a sublist of the input's. -/
theorem walkLevels_prices (instr : Nat) (inc : OBEntry) (cp : Bool) :
    ∀ (levels : List PriceLevel) (s : WalkSt),
      List.Sublist (pricesOf (walkLevels instr inc cp levels s).1) (pricesOf levels) := by
  intro levels
  induction levels with
  | nil => intro s; simp [walkLevels, pricesOf]
  | cons lv rest ih =>
    intro s
    simp only [walkLevels]
    by_cases htc : s.tc < MAX_TRADES_PER_MATCH
    · rw [if_pos htc]
      by_cases hbr : (cp && priceBreak inc lv.price) = true
      · rw [if_pos hbr]
      · rw [if_neg hbr]
        rcases hco : consumeOrders instr inc lv.orders lv.total_quantity lv.order_count s
          with ⟨ords, tq, oc, s1⟩
        simp only [hco]
        by_cases hemp : ords.isEmpty
        · rw [if_pos hemp]
          refine (ih s1).trans ?_
          show List.Sublist (pricesOf rest) (lv.price :: pricesOf rest)
          exact List.sublist_cons_self _ _
        · rw [if_neg hemp]
          simp only [pricesOf, List.map_cons]
          exact List.Sublist.refl _
    · rw [if_neg htc]

/-- The outer walk preserves well-formedness of every level. -/
theorem walkLevels_ok (instr : Nat) (inc : OBEntry) (cp : Bool) :
    ∀ (levels : List PriceLevel) (s : WalkSt),
      levelsOk levels → levelsOk (walkLevels instr inc cp levels s).1 := by
  intro levels
  induction levels with
  | nil => intro s _; simp [walkLevels, levelsOk]
  | cons lv rest ih =>
    intro s hok
    have hlv : levelOk lv := hok lv (by simp)
    have hrest : levelsOk rest := fun l hl => hok l (by simp [hl])
    simp only [walkLevels]
    by_cases htc : s.tc < MAX_TRADES_PER_MATCH
    · rw [if_pos htc]
      by_cases hbr : (cp && priceBreak inc lv.price) = true
      · rw [if_pos hbr]
        exact hok
      · rw [if_neg hbr]
        rcases hco : consumeOrders instr inc lv.orders lv.total_quantity lv.order_count s
          with ⟨ords, tq, oc, s1⟩
        have hco' := consumeOrders_ok instr inc lv.orders lv.total_quantity lv.order_count s
          hlv.2.2 hlv.2.1
        rw [hco] at hco'
        simp only [hco]
        by_cases hemp : ords.isEmpty
        · rw [if_pos hemp]
          exact ih s1 hrest
        · rw [if_neg hemp]
          intro l hl
          rcases List.mem_cons.mp hl with h | h
          · rw [h]
            refine ⟨fun hx => ?_, hco'.2, hco'.1⟩
            have hx2 : ords = [] := hx
            rw [hx2] at hemp
            simp at hemp
          · exact hrest l h
    · rw [if_neg htc]
      exact hok

/-- `update_best_bid` touches only the bid cache. -/
theorem updateBestBid_fields (b : Book) :
    (b.updateBestBid).bids = b.bids ∧ (b.updateBestBid).asks = b.asks ∧
    (b.updateBestBid).bestAskC = b.bestAskC ∧
    (b.updateBestBid).bestAskQtyC = b.bestAskQtyC := by
  rcases hb : b.bids with _ | ⟨lv, rest⟩ <;> simp [Book.updateBestBid, hb]

/-- `update_best_ask` touches only the ask cache. -/
theorem updateBestAsk_fields (b : Book) :
    (b.updateBestAsk).bids = b.bids ∧ (b.updateBestAsk).asks = b.asks ∧
    (b.updateBestAsk).bestBidC = b.bestBidC ∧
    (b.updateBestAsk).bestBidQtyC = b.bestBidQtyC := by
  rcases hb : b.asks with _ | ⟨lv, rest⟩ <;> simp [Book.updateBestAsk, hb]

/-- `update_best_bid` re-establishes the bid cache. -/
theorem updateBestBid_cache (b : Book) (h : levelsOk b.bids) :
    bidCacheOk (b.updateBestBid) := by
  rcases hb : b.bids with _ | ⟨lv, rest⟩
  · have he : b.updateBestBid = { b with bestBidC := 0, bestBidQtyC := 0 } := by
      simp [Book.updateBestBid, hb]
    rw [he]
    exact ⟨fun _ => ⟨rfl, rfl⟩, fun lv' rest' hcons => absurd (hb ▸ hcons) (by simp)⟩
  · have he : b.updateBestBid =
        { b with bestBidC := lv.price, bestBidQtyC := lv.total_quantity } := by
      simp [Book.updateBestBid, hb]
    rw [he]
    constructor
    · intro hnil
      have hnil2 : b.bids = [] := hnil
      rw [hb] at hnil2
      exact absurd hnil2 (by simp)
    · intro lv' rest' hcons
      have hcons2 : b.bids = lv' :: rest' := hcons
      rw [hb] at hcons2
      injection hcons2 with h1 h2
      subst h1
      exact ⟨rfl, levelOk_total_pos (h lv (by rw [hb]; simp))⟩

/-- `update_best_ask` re-establishes the ask cache. -/
theorem updateBestAsk_cache (b : Book) (h : levelsOk b.asks) :
    askCacheOk (b.updateBestAsk) := by
  rcases hb : b.asks with _ | ⟨lv, rest⟩
  · have he : b.updateBestAsk = { b with bestAskC := askMax, bestAskQtyC := 0 } := by
      simp [Book.updateBestAsk, hb]
    rw [he]
    exact ⟨fun _ => ⟨rfl, rfl⟩, fun lv' rest' hcons => absurd (hb ▸ hcons) (by simp)⟩
  · have he : b.updateBestAsk =
        { b with bestAskC := lv.price, bestAskQtyC := lv.total_quantity } := by
      simp [Book.updateBestAsk, hb]
    rw [he]
    constructor
    · intro hnil
      have hnil2 : b.asks = [] := hnil
      rw [hb] at hnil2
      exact absurd hnil2 (by simp)
    · intro lv' rest' hcons
      have hcons2 : b.asks = lv' :: rest' := hcons
      rw [hb] at hcons2
      injection hcons2 with h1 h2
      subst h1
      exact ⟨rfl, levelOk_total_pos (h lv (by rw [hb]; simp))⟩

/-- Prices after a bid insert come from the new order or the old levels. -/
theorem bidInsert_mem_prices (e : OBEntry) :
    ∀ (ls : List PriceLevel) (p : Int), p ∈ pricesOf (bidInsert ls e) →
      p = e.price ∨ p ∈ pricesOf ls := by
  intro ls
  induction ls with
  | nil => intro p hp; simpa [bidInsert, pricesOf, PriceLevel.add_order] using hp
  | cons lv rest ih =>
    intro p hp
    simp only [bidInsert] at hp
    split_ifs at hp with h1 h2
    · rcases (by simpa [pricesOf, PriceLevel.add_order] using hp :
          p = e.price ∨ p = lv.price ∨ p ∈ pricesOf rest) with h | h | h
      · exact Or.inl h
      · exact Or.inr (by simp [pricesOf, h])
      · exact Or.inr (by simp [pricesOf]; exact Or.inr (by simpa [pricesOf] using h))
    · rcases (by simpa [pricesOf, PriceLevel.add_order] using hp :
          p = lv.price ∨ p ∈ pricesOf rest) with h | h
      · exact Or.inr (by simp [pricesOf, h])
      · exact Or.inr (by simp [pricesOf]; exact Or.inr (by simpa [pricesOf] using h))
    · rcases (by simpa [pricesOf] using hp :
          p = lv.price ∨ p ∈ pricesOf (bidInsert rest e)) with h | h
      · exact Or.inr (by simp [pricesOf, h])
      · rcases ih p (by simpa [pricesOf] using h) with h' | h'
        · exact Or.inl h'
        · exact Or.inr (by simp [pricesOf]; exact Or.inr (by simpa [pricesOf] using h'))

/-- Prices after an ask insert come from the new order or the old levels. -/
theorem askInsert_mem_prices (e : OBEntry) :
    ∀ (ls : List PriceLevel) (p : Int), p ∈ pricesOf (askInsert ls e) →
      p = e.price ∨ p ∈ pricesOf ls := by
  intro ls
  induction ls with
  | nil => intro p hp; simpa [askInsert, pricesOf, PriceLevel.add_order] using hp
  | cons lv rest ih =>
    intro p hp
    simp only [askInsert] at hp
    split_ifs at hp with h1 h2
    · rcases (by simpa [pricesOf, PriceLevel.add_order] using hp :
          p = e.price ∨ p = lv.price ∨ p ∈ pricesOf rest) with h | h | h
      · exact Or.inl h
      · exact Or.inr (by simp [pricesOf, h])
      · exact Or.inr (by simp [pricesOf]; exact Or.inr (by simpa [pricesOf] using h))
    · rcases (by simpa [pricesOf, PriceLevel.add_order] using hp :
          p = lv.price ∨ p ∈ pricesOf rest) with h | h
      · exact Or.inr (by simp [pricesOf, h])
      · exact Or.inr (by simp [pricesOf]; exact Or.inr (by simpa [pricesOf] using h))
    · rcases (by simpa [pricesOf] using hp :
          p = lv.price ∨ p ∈ pricesOf (askInsert rest e)) with h | h
      · exact Or.inr (by simp [pricesOf, h])
      · rcases ih p (by simpa [pricesOf] using h) with h' | h'
        · exact Or.inl h'
        · exact Or.inr (by simp [pricesOf]; exact Or.inr (by simpa [pricesOf] using h'))

/-- A bid insert keeps the bid side strictly descending. -/
theorem bidInsert_sorted (e : OBEntry) :
    ∀ (ls : List PriceLevel), bidSorted ls → bidSorted (bidInsert ls e) := by
  intro ls
  induction ls with
  | nil => intro _; simp [bidInsert, bidSorted, pricesOf, PriceLevel.add_order]
  | cons lv rest ih =>
    intro h
    have h' : bidSorted (lv :: rest) := h
    rw [show bidSorted (lv :: rest) =
        (pricesOf (lv :: rest)).Pairwise (fun a b => b < a) from rfl] at h'
    simp only [pricesOf, List.map_cons, List.pairwise_cons] at h'
    obtain ⟨hhead, htail⟩ := h'
    simp only [bidInsert]
    split_ifs with h1 h2
    · show ((PriceLevel.add_order ⟨e.price, 0, 0, []⟩ e).price ::
        pricesOf (lv :: rest)).Pairwise (fun a b => b < a)
      simp only [PriceLevel.add_order, pricesOf, List.map_cons, List.pairwise_cons]
      refine ⟨?_, hhead, htail⟩
      intro p hp
      rcases (by simpa using hp : p = lv.price ∨ p ∈ List.map PriceLevel.price rest)
        with hx | hx
      · omega
      · have := hhead p hx
        omega
    · show ((PriceLevel.add_order lv e).price :: pricesOf rest).Pairwise (fun a b => b < a)
      simp only [PriceLevel.add_order, pricesOf, List.pairwise_cons]
      exact ⟨fun p hp => hhead p (by simpa [pricesOf] using hp), htail⟩
    · show (lv.price :: pricesOf (bidInsert rest e)).Pairwise (fun a b => b < a)
      simp only [List.pairwise_cons]
      refine ⟨?_, ih htail⟩
      intro p hp
      rcases bidInsert_mem_prices e rest p hp with hx | hx
      · omega
      · exact hhead p (by simpa [pricesOf] using hx)

/-- An ask insert keeps the ask side strictly ascending. -/
theorem askInsert_sorted (e : OBEntry) :
    ∀ (ls : List PriceLevel), askSorted ls → askSorted (askInsert ls e) := by
  intro ls
  induction ls with
  | nil => intro _; simp [askInsert, askSorted, pricesOf, PriceLevel.add_order]
  | cons lv rest ih =>
    intro h
    have h' : askSorted (lv :: rest) := h
    rw [show askSorted (lv :: rest) =
        (pricesOf (lv :: rest)).Pairwise (fun a b => a < b) from rfl] at h'
    simp only [pricesOf, List.map_cons, List.pairwise_cons] at h'
    obtain ⟨hhead, htail⟩ := h'
    simp only [askInsert]
    split_ifs with h1 h2
    · show ((PriceLevel.add_order ⟨e.price, 0, 0, []⟩ e).price ::
        pricesOf (lv :: rest)).Pairwise (fun a b => a < b)
      simp only [PriceLevel.add_order, pricesOf, List.map_cons, List.pairwise_cons]
      refine ⟨?_, hhead, htail⟩
      intro p hp
      rcases (by simpa using hp : p = lv.price ∨ p ∈ List.map PriceLevel.price rest)
        with hx | hx
      · omega
      · have := hhead p hx
        omega
    · show ((PriceLevel.add_order lv e).price :: pricesOf rest).Pairwise (fun a b => a < b)
      simp only [PriceLevel.add_order, pricesOf, List.pairwise_cons]
      exact ⟨fun p hp => hhead p (by simpa [pricesOf] using hp), htail⟩
    · show (lv.price :: pricesOf (askInsert rest e)).Pairwise (fun a b => a < b)
      simp only [List.pairwise_cons]
      refine ⟨?_, ih htail⟩
      intro p hp
      rcases askInsert_mem_prices e rest p hp with hx | hx
      · omega
      · exact hhead p (by simpa [pricesOf] using hx)

/-- `PriceLevel::add_order` keeps a level well-formed. -/
theorem add_order_levelOk {lv : PriceLevel} {e : OBEntry} (h : levelOk lv)
    (he : e.filled_quantity < e.quantity) : levelOk (lv.add_order e) := by
  obtain ⟨hne, hsum, hres⟩ := h
  refine ⟨by simp [PriceLevel.add_order], ?_, ?_⟩
  · show sumResiduals (lv.orders ++ [e]) ≤ lv.total_quantity + (e.quantity - e.filled_quantity)
    rw [sumResiduals_append]
    omega
  · intro e' he'
    rcases (by simpa [PriceLevel.add_order] using he' : e' ∈ lv.orders ∨ e' = e) with h | h
    · exact hres e' h
    · rw [h]; exact he

/-- A freshly created level holding only `e` is well-formed. -/
theorem new_levelOk (e : OBEntry) (he : e.filled_quantity < e.quantity) :
    levelOk (PriceLevel.add_order ⟨e.price, 0, 0, []⟩ e) := by
  refine ⟨by simp [PriceLevel.add_order], ?_, ?_⟩
  · show sumResiduals ([] ++ [e]) ≤ 0 + (e.quantity - e.filled_quantity)
    simp [sumResiduals]
  · intro e' he'
    have : e' = e := by simpa [PriceLevel.add_order] using he'
    rw [this]; exact he

/-- A bid insert keeps every level well-formed. -/
theorem bidInsert_ok (e : OBEntry) (he : e.filled_quantity < e.quantity) :
    ∀ (ls : List PriceLevel), levelsOk ls → levelsOk (bidInsert ls e) := by
  intro ls
  induction ls with
  | nil =>
    intro _ lv hlv
    have : lv = PriceLevel.add_order ⟨e.price, 0, 0, []⟩ e := by
      simpa [bidInsert] using hlv
    rw [this]; exact new_levelOk e he
  | cons lv rest ih =>
    intro h l hl
    simp only [bidInsert] at hl
    split_ifs at hl with h1 h2
    · rcases (by simpa using hl :
          l = PriceLevel.add_order ⟨e.price, 0, 0, []⟩ e ∨ l = lv ∨ l ∈ rest) with h' | h' | h'
      · rw [h']; exact new_levelOk e he
      · rw [h']; exact h lv (by simp)
      · exact h l (by simp [h'])
    · rcases (by simpa using hl : l = PriceLevel.add_order lv e ∨ l ∈ rest) with h' | h'
      · rw [h']; exact add_order_levelOk (h lv (by simp)) he
      · exact h l (by simp [h'])
    · rcases (by simpa using hl : l = lv ∨ l ∈ bidInsert rest e) with h' | h'
      · rw [h']; exact h lv (by simp)
      · exact ih (fun x hx => h x (by simp [hx])) l h'

/-- An ask insert keeps every level well-formed. -/
theorem askInsert_ok (e : OBEntry) (he : e.filled_quantity < e.quantity) :
    ∀ (ls : List PriceLevel), levelsOk ls → levelsOk (askInsert ls e) := by
  intro ls
  induction ls with
  | nil =>
    intro _ lv hlv
    have : lv = PriceLevel.add_order ⟨e.price, 0, 0, []⟩ e := by
      simpa [askInsert] using hlv
    rw [this]; exact new_levelOk e he
  | cons lv rest ih =>
    intro h l hl
    simp only [askInsert] at hl
    split_ifs at hl with h1 h2
    · rcases (by simpa using hl :
          l = PriceLevel.add_order ⟨e.price, 0, 0, []⟩ e ∨ l = lv ∨ l ∈ rest) with h' | h' | h'
      · rw [h']; exact new_levelOk e he
      · rw [h']; exact h lv (by simp)
      · exact h l (by simp [h'])
    · rcases (by simpa using hl : l = PriceLevel.add_order lv e ∨ l ∈ rest) with h' | h'
      · rw [h']; exact add_order_levelOk (h lv (by simp)) he
      · exact h l (by simp [h'])
    · rcases (by simpa using hl : l = lv ∨ l ∈ askInsert rest e) with h' | h'
      · rw [h']; exact h lv (by simp)
      · exact ih (fun x hx => h x (by simp [hx])) l h'

/-- A price present in the list is found by `findLevel`, on a member level. -/
theorem findLevel_some_of_mem :
    ∀ (ls : List PriceLevel) (p : Int), p ∈ pricesOf ls →
      ∃ lv, findLevel ls p = some lv ∧ lv ∈ ls := by
  intro ls
  induction ls with
  | nil => intro p hp; simp [pricesOf] at hp
  | cons lv rest ih =>
    intro p hp
    by_cases he : lv.price = p
    · exact ⟨lv, by simp [findLevel, he], by simp⟩
    · have hp' : p ∈ pricesOf rest := by
        rcases (by simpa [pricesOf] using hp : p = lv.price ∨ p ∈ List.map PriceLevel.price rest)
          with h | h
        · omega
        · simpa [pricesOf] using h
      obtain ⟨l, hfind, hmem⟩ := ih p hp'
      exact ⟨l, by simp [findLevel, he] at hfind ⊢; exact hfind, by simp [hmem]⟩

/-- The price of a newly inserted bid is present afterwards. -/
theorem bidInsert_price_mem (e : OBEntry) :
    ∀ (ls : List PriceLevel), e.price ∈ pricesOf (bidInsert ls e) := by
  intro ls
  induction ls with
  | nil => simp [bidInsert, pricesOf, PriceLevel.add_order]
  | cons lv rest ih =>
    simp only [bidInsert]
    split_ifs with h1 h2
    · simp [pricesOf, PriceLevel.add_order]
    · simp [pricesOf, PriceLevel.add_order, h2]
    · simp only [pricesOf, List.map_cons, List.mem_cons]
      exact Or.inr (by simpa [pricesOf] using ih)

/-- The price of a newly inserted ask is present afterwards. -/
theorem askInsert_price_mem (e : OBEntry) :
    ∀ (ls : List PriceLevel), e.price ∈ pricesOf (askInsert ls e) := by
  intro ls
  induction ls with
  | nil => simp [askInsert, pricesOf, PriceLevel.add_order]
  | cons lv rest ih =>
    simp only [askInsert]
    split_ifs with h1 h2
    · simp [pricesOf, PriceLevel.add_order]
    · simp [pricesOf, PriceLevel.add_order, h2]
    · simp only [pricesOf, List.map_cons, List.mem_cons]
      exact Or.inr (by simpa [pricesOf] using ih)

/-- Ask-cache correctness transfers along equal fields. -/
theorem askCacheOk_transfer {b b' : Book} (h : askCacheOk b) (h1 : b'.asks = b.asks)
    (h2 : b'.bestAskC = b.bestAskC) (h3 : b'.bestAskQtyC = b.bestAskQtyC) :
    askCacheOk b' := by
  show (b'.asks = [] → b'.bestAskC = askMax ∧ b'.bestAskQtyC = 0) ∧ _
  rw [h1, h2, h3]
  exact h

/-- Bid-cache correctness transfers along equal fields. -/
theorem bidCacheOk_transfer {b b' : Book} (h : bidCacheOk b) (h1 : b'.bids = b.bids)
    (h2 : b'.bestBidC = b.bestBidC) (h3 : b'.bestBidQtyC = b.bestBidQtyC) :
    bidCacheOk b' := by
  show (b'.bids = [] → b'.bestBidC = 0 ∧ b'.bestBidQtyC = 0) ∧ _
  rw [h1, h2, h3]
  exact h

/-- Boundedness by the sentinel, in terms of prices. -/
theorem asksBounded_iff (ls : List PriceLevel) :
    asksBounded ls ↔ ∀ p ∈ pricesOf ls, p < askMax := by
  constructor
  · intro h p hp
    obtain ⟨lv, hlv, hpr⟩ := List.mem_map.mp hp
    exact hpr ▸ h lv hlv
  · intro h lv hlv
    exact h lv.price (List.mem_map_of_mem _ hlv)

/-- A bid insert is never empty, and its head price is the old head price
or the new order's price, whichever the descending order puts first. -/
theorem bidInsert_head (ls : List PriceLevel) (e : OBEntry) :
    ∀ lv' rest', bidInsert ls e = lv' :: rest' →
      (ls = [] → lv'.price = e.price) ∧
      (∀ l0 t0, ls = l0 :: t0 →
        (l0.price < e.price → lv'.price = e.price) ∧
        (¬ l0.price < e.price → lv'.price = l0.price)) := by
  intro lv' rest' hins
  constructor
  · intro hnil
    rw [hnil] at hins
    simp only [bidInsert] at hins
    injection hins with h1 _
    rw [← h1]
    rfl
  · intro l0 t0 hcons
    rw [hcons] at hins
    simp only [bidInsert] at hins
    constructor
    · intro hlt
      rw [if_pos hlt] at hins
      injection hins with h1 _
      rw [← h1]
      rfl
    · intro hge
      rw [if_neg hge] at hins
      by_cases heq : e.price = l0.price
      · rw [if_pos heq] at hins
        injection hins with h1 _
        rw [← h1]
        simp [PriceLevel.add_order]
      · rw [if_neg heq] at hins
        injection hins with h1 _
        rw [← h1]

/-- An ask insert is never empty, with the symmetric head price. -/
theorem askInsert_head (ls : List PriceLevel) (e : OBEntry) :
    ∀ lv' rest', askInsert ls e = lv' :: rest' →
      (ls = [] → lv'.price = e.price) ∧
      (∀ l0 t0, ls = l0 :: t0 →
        (e.price < l0.price → lv'.price = e.price) ∧
        (¬ e.price < l0.price → lv'.price = l0.price)) := by
  intro lv' rest' hins
  constructor
  · intro hnil
    rw [hnil] at hins
    simp only [askInsert] at hins
    injection hins with h1 _
    rw [← h1]
    rfl
  · intro l0 t0 hcons
    rw [hcons] at hins
    simp only [askInsert] at hins
    constructor
    · intro hlt
      rw [if_pos hlt] at hins
      injection hins with h1 _
      rw [← h1]
      rfl
    · intro hge
      rw [if_neg hge] at hins
      by_cases heq : e.price = l0.price
      · rw [if_pos heq] at hins
        injection hins with h1 _
        rw [← h1]
        simp [PriceLevel.add_order]
      · rw [if_neg heq] at hins
        injection hins with h1 _
        rw [← h1]

/-- A bid insert never produces the empty list. -/
theorem bidInsert_ne_nil (ls : List PriceLevel) (e : OBEntry) :
    bidInsert ls e ≠ [] := by
  cases ls with
  | nil => simp [bidInsert]
  | cons lv rest =>
    simp only [bidInsert]
    split_ifs <;> simp

/-- An ask insert never produces the empty list. -/
theorem askInsert_ne_nil (ls : List PriceLevel) (e : OBEntry) :
    askInsert ls e ≠ [] := by
  cases ls with
  | nil => simp [askInsert]
  | cons lv rest =>
    simp only [askInsert]
    split_ifs <;> simp

/-- Split a list into its two shapes without rewriting the goal. -/
theorem list_split {α : Type} (l : List α) : l = [] ∨ ∃ x t, l = x :: t := by
  cases l with
  | nil => exact Or.inl rfl
  | cons x t => exact Or.inr ⟨x, t, rfl⟩

/-- `add_to_book` preserves the book invariant for an entry with positive
residual and bounded price. -/
theorem add_to_book_inv (b : Book) (e : OBEntry) (hInv : BookInv b)
    (he : e.filled_quantity < e.quantity) (hbound : e.price < askMax) :
    BookInv (b.add_to_book e) := by
  cases hside : e.side
  case buy =>
    simp only [Book.add_to_book, hside]
    have hsort1 : bidSorted (bidInsert b.bids e) := bidInsert_sorted e b.bids hInv.bsort
    have hok1 : levelsOk (bidInsert b.bids e) := bidInsert_ok e he b.bids hInv.bok
    by_cases hcond : e.price > b.bestBidC ∨ b.bestBidQtyC = 0
    · rw [if_pos hcond]
      obtain ⟨lvf, hfind, hmemf⟩ :=
        findLevel_some_of_mem (bidInsert b.bids e) e.price (bidInsert_price_mem e b.bids)
      have hqty : ((findLevel (bidInsert b.bids e) e.price).map
          PriceLevel.total_quantity).getD 0 ≠ 0 := by
        rw [hfind]
        simpa using levelOk_total_pos (hok1 lvf hmemf)
      refine ⟨hsort1, hInv.asort, hok1, hInv.aok, hInv.abound, ?_, ?_⟩
      · constructor
        · intro hnil
          exact absurd hnil (bidInsert_ne_nil b.bids e)
        · intro lv' rest' hcons
          have hcons2 : bidInsert b.bids e = lv' :: rest' := hcons
          have hh := bidInsert_head b.bids e lv' rest' hcons2
          rcases list_split b.bids with hb | ⟨l0, t0, hb⟩
          · exact ⟨(hh.1 hb).symm, hqty⟩
          · obtain ⟨hc1, hc2⟩ := (hInv.bcache).2 l0 t0 hb
            have hgt : l0.price < e.price := by
              rcases hcond with h | h
              · omega
              · exact absurd h hc2
            exact ⟨((hh.2 l0 t0 hb).1 hgt).symm, hqty⟩
      · exact askCacheOk_transfer hInv.acache rfl rfl rfl
    · rw [if_neg hcond]
      push_neg at hcond
      obtain ⟨hle, hqne⟩ := hcond
      refine ⟨hsort1, hInv.asort, hok1, hInv.aok, hInv.abound, ?_, ?_⟩
      · rcases list_split b.bids with hb | ⟨l0, t0, hb⟩
        · exact absurd ((hInv.bcache).1 hb).2 hqne
        · obtain ⟨hc1, hc2⟩ := (hInv.bcache).2 l0 t0 hb
          constructor
          · intro hnil
            exact absurd hnil (bidInsert_ne_nil b.bids e)
          · intro lv' rest' hcons
            have hcons2 : bidInsert b.bids e = lv' :: rest' := hcons
            have hh := bidInsert_head b.bids e lv' rest' hcons2
            have hhead : lv'.price = l0.price :=
              (hh.2 l0 t0 hb).2 (by omega)
            exact ⟨by rw [hhead, ← hc1], hqne⟩
      · exact askCacheOk_transfer hInv.acache rfl rfl rfl
  case sell =>
    simp only [Book.add_to_book, hside]
    have hsort1 : askSorted (askInsert b.asks e) := askInsert_sorted e b.asks hInv.asort
    have hok1 : levelsOk (askInsert b.asks e) := askInsert_ok e he b.asks hInv.aok
    have habound : asksBounded (askInsert b.asks e) := by
      rw [asksBounded_iff]
      intro p hp
      rcases askInsert_mem_prices e b.asks p hp with h | h
      · omega
      · exact (asksBounded_iff b.asks).mp hInv.abound p h
    by_cases hcond : e.price < b.bestAskC ∨ b.bestAskQtyC = 0
    · rw [if_pos hcond]
      obtain ⟨lvf, hfind, hmemf⟩ :=
        findLevel_some_of_mem (askInsert b.asks e) e.price (askInsert_price_mem e b.asks)
      have hqty : ((findLevel (askInsert b.asks e) e.price).map
          PriceLevel.total_quantity).getD 0 ≠ 0 := by
        rw [hfind]
        simpa using levelOk_total_pos (hok1 lvf hmemf)
      refine ⟨hInv.bsort, hsort1, hInv.bok, hok1, habound, ?_, ?_⟩
      · exact bidCacheOk_transfer hInv.bcache rfl rfl rfl
      · constructor
        · intro hnil
          exact absurd hnil (askInsert_ne_nil b.asks e)
        · intro lv' rest' hcons
          have hcons2 : askInsert b.asks e = lv' :: rest' := hcons
          have hh := askInsert_head b.asks e lv' rest' hcons2
          rcases list_split b.asks with hb | ⟨l0, t0, hb⟩
          · exact ⟨(hh.1 hb).symm, hqty⟩
          · obtain ⟨hc1, hc2⟩ := (hInv.acache).2 l0 t0 hb
            have hlt : e.price < l0.price := by
              rcases hcond with h | h
              · omega
              · exact absurd h hc2
            exact ⟨((hh.2 l0 t0 hb).1 hlt).symm, hqty⟩
    · rw [if_neg hcond]
      push_neg at hcond
      obtain ⟨hge, hqne⟩ := hcond
      refine ⟨hInv.bsort, hsort1, hInv.bok, hok1, habound, ?_, ?_⟩
      · exact bidCacheOk_transfer hInv.bcache rfl rfl rfl
      · rcases list_split b.asks with hb | ⟨l0, t0, hb⟩
        · exact absurd ((hInv.acache).1 hb).2 hqne
        · obtain ⟨hc1, hc2⟩ := (hInv.acache).2 l0 t0 hb
          constructor
          · intro hnil
            exact absurd hnil (askInsert_ne_nil b.asks e)
          · intro lv' rest' hcons
            have hcons2 : askInsert b.asks e = lv' :: rest' := hcons
            have hh := askInsert_head b.asks e lv' rest' hcons2
            have hhead : lv'.price = l0.price :=
              (hh.2 l0 t0 hb).2 (by omega)
            exact ⟨by rw [hhead, ← hc1], hqne⟩

/-- The book invariant transfers along equal matching-relevant fields. -/
theorem bookInv_transfer {b b' : Book} (h : BookInv b)
    (h1 : b'.bids = b.bids) (h2 : b'.asks = b.asks)
    (h3 : b'.bestBidC = b.bestBidC) (h4 : b'.bestBidQtyC = b.bestBidQtyC)
    (h5 : b'.bestAskC = b.bestAskC) (h6 : b'.bestAskQtyC = b.bestAskQtyC) :
    BookInv b' := by
  refine ⟨?_, ?_, ?_, ?_, ?_, ?_, ?_⟩
  · rw [show bidSorted b'.bids = bidSorted b.bids from by rw [h1]]
    exact h.bsort
  · rw [show askSorted b'.asks = askSorted b.asks from by rw [h2]]
    exact h.asort
  · rw [show levelsOk b'.bids = levelsOk b.bids from by rw [h1]]
    exact h.bok
  · rw [show levelsOk b'.asks = levelsOk b.asks from by rw [h2]]
    exact h.aok
  · rw [show asksBounded b'.asks = asksBounded b.asks from by rw [h2]]
    exact h.abound
  · exact bidCacheOk_transfer h.bcache h1 h3 h4
  · exact askCacheOk_transfer h.acache h2 h5 h6

/-- A buy-side matching walk followed by the best-ask refresh keeps the
book invariant. -/
theorem walked_buy_inv (b : Book) (e : OBEntry) (cp : Bool) (s0 : WalkSt)
    (hInv : BookInv b) (asks1 : List PriceLevel) (s1 : WalkSt)
    (hw : walkLevels b.instrument e cp b.asks s0 = (asks1, s1)) :
    BookInv (Book.updateBestAsk { b with asks := asks1 }) := by
  have hsub : List.Sublist (pricesOf asks1) (pricesOf b.asks) := by
    have := walkLevels_prices b.instrument e cp b.asks s0
    rwa [hw] at this
  have hok1 : levelsOk asks1 := by
    have := walkLevels_ok b.instrument e cp b.asks s0 hInv.aok
    rwa [hw] at this
  have hf := updateBestAsk_fields { b with asks := asks1 }
  refine ⟨?_, ?_, ?_, ?_, ?_, ?_, ?_⟩
  · rw [show bidSorted (Book.updateBestAsk { b with asks := asks1 }).bids =
        bidSorted b.bids from by rw [hf.1]]
    exact hInv.bsort
  · rw [show askSorted (Book.updateBestAsk { b with asks := asks1 }).asks =
        askSorted asks1 from by rw [hf.2.1]]
    exact hInv.asort.sublist hsub
  · rw [show levelsOk (Book.updateBestAsk { b with asks := asks1 }).bids =
        levelsOk b.bids from by rw [hf.1]]
    exact hInv.bok
  · rw [show levelsOk (Book.updateBestAsk { b with asks := asks1 }).asks =
        levelsOk asks1 from by rw [hf.2.1]]
    exact hok1
  · rw [show asksBounded (Book.updateBestAsk { b with asks := asks1 }).asks =
        asksBounded asks1 from by rw [hf.2.1]]
    rw [asksBounded_iff]
    intro p hp
    exact (asksBounded_iff b.asks).mp hInv.abound p (hsub.subset hp)
  · exact bidCacheOk_transfer hInv.bcache hf.1 hf.2.2.1 hf.2.2.2
  · exact updateBestAsk_cache _ hok1

/-- A sell-side matching walk followed by the best-bid refresh keeps the
book invariant. -/
theorem walked_sell_inv (b : Book) (e : OBEntry) (cp : Bool) (s0 : WalkSt)
    (hInv : BookInv b) (bids1 : List PriceLevel) (s1 : WalkSt)
    (hw : walkLevels b.instrument e cp b.bids s0 = (bids1, s1)) :
    BookInv (Book.updateBestBid { b with bids := bids1 }) := by
  have hsub : List.Sublist (pricesOf bids1) (pricesOf b.bids) := by
    have := walkLevels_prices b.instrument e cp b.bids s0
    rwa [hw] at this
  have hok1 : levelsOk bids1 := by
    have := walkLevels_ok b.instrument e cp b.bids s0 hInv.bok
    rwa [hw] at this
  have hf := updateBestBid_fields { b with bids := bids1 }
  refine ⟨?_, ?_, ?_, ?_, ?_, ?_, ?_⟩
  · rw [show bidSorted (Book.updateBestBid { b with bids := bids1 }).bids =
        bidSorted bids1 from by rw [hf.1]]
    exact hInv.bsort.sublist hsub
  · rw [show askSorted (Book.updateBestBid { b with bids := bids1 }).asks =
        askSorted b.asks from by rw [hf.2.1]]
    exact hInv.asort
  · rw [show levelsOk (Book.updateBestBid { b with bids := bids1 }).bids =
        levelsOk bids1 from by rw [hf.1]]
    exact hok1
  · rw [show levelsOk (Book.updateBestBid { b with bids := bids1 }).asks =
        levelsOk b.asks from by rw [hf.2.1]]
    exact hInv.aok
  · rw [show asksBounded (Book.updateBestBid { b with bids := bids1 }).asks =
        asksBounded b.asks from by rw [hf.2.1]]
    exact hInv.abound
  · exact updateBestBid_cache _ hok1
  · exact askCacheOk_transfer hInv.acache hf.2.1 hf.2.2.1 hf.2.2.2

/-- Matching preserves the book invariant, provided the incoming entry's
price stays below the best-ask sentinel. -/
theorem match_order_inv (b : Book) (e : OBEntry) (hInv : BookInv b)
    (hbound : e.price < askMax) :
    BookInv (b.match_order e).1 := by
  have tail : ∀ (b1 : Book) (s1 : WalkSt) (sd : Side), BookInv b1 →
      BookInv ((if e.otype = OrderType.fok ∧ e.quantity - s1.incFilled > 0 ∧ s1.tc > 0 then
          (({ b1 with ordersMap := eraseKey s1.om e.id, poolFree := s1.pf + 1 } : Book),
            ([] : List Trade))
        else if e.quantity - s1.incFilled > 0 then
          if e.otype = OrderType.ioc ∨ e.otype = OrderType.market then
            ({ b1 with ordersMap := eraseKey s1.om e.id, poolFree := s1.pf + 1 }, s1.trades)
          else if e.otype = OrderType.limit then
            (Book.add_to_book { b1 with ordersMap := s1.om, poolFree := s1.pf }
              { id := e.id, instrument := e.instrument, side := sd, otype := e.otype,
                status := if s1.incFilled > 0 then OrderStatus.osPartFilled
                          else OrderStatus.osNew,
                price := e.price, quantity := e.quantity,
                filled_quantity := s1.incFilled, timestamp := e.timestamp },
             s1.trades)
          else ({ b1 with ordersMap := s1.om, poolFree := s1.pf }, s1.trades)
        else ({ b1 with ordersMap := eraseKey s1.om e.id, poolFree := s1.pf + 1 },
          s1.trades)).1) := by
    intro b1 s1 sd h1
    split_ifs with h2 h3 h4 h5 h6
    · exact bookInv_transfer h1 rfl rfl rfl rfl rfl rfl
    · exact bookInv_transfer h1 rfl rfl rfl rfl rfl rfl
    · refine add_to_book_inv _ _ (bookInv_transfer h1 rfl rfl rfl rfl rfl rfl) ?_ hbound
      show s1.incFilled < e.quantity
      omega
    · refine add_to_book_inv _ _ (bookInv_transfer h1 rfl rfl rfl rfl rfl rfl) ?_ hbound
      show s1.incFilled < e.quantity
      omega
    · exact bookInv_transfer h1 rfl rfl rfl rfl rfl rfl
    · exact bookInv_transfer h1 rfl rfl rfl rfl rfl rfl
  by_cases hm : e.otype = OrderType.market
  · cases hside : e.side
    · rcases hw : walkLevels b.instrument e false b.asks ⟨0, 0, [], b.ordersMap, b.poolFree⟩ with ⟨asks1, s1⟩
      have hb1 := walked_buy_inv b e false ⟨0, 0, [], b.ordersMap, b.poolFree⟩ hInv asks1 s1 hw
      simp only [Book.match_order, if_pos hm, hside, hw]
      exact tail _ s1 Side.buy hb1
    · rcases hw : walkLevels b.instrument e false b.bids ⟨0, 0, [], b.ordersMap, b.poolFree⟩ with ⟨bids1, s1⟩
      have hb1 := walked_sell_inv b e false ⟨0, 0, [], b.ordersMap, b.poolFree⟩ hInv bids1 s1 hw
      simp only [Book.match_order, if_pos hm, hside, hw]
      exact tail _ s1 Side.sell hb1
  · cases hside : e.side
    · rcases hw : walkLevels b.instrument e true b.asks ⟨0, 0, [], b.ordersMap, b.poolFree⟩ with ⟨asks1, s1⟩
      have hb1 := walked_buy_inv b e true ⟨0, 0, [], b.ordersMap, b.poolFree⟩ hInv asks1 s1 hw
      simp only [Book.match_order, if_neg hm, hside, hw]
      exact tail _ s1 Side.buy hb1
    · rcases hw : walkLevels b.instrument e true b.bids ⟨0, 0, [], b.ordersMap, b.poolFree⟩ with ⟨bids1, s1⟩
      have hb1 := walked_sell_inv b e true ⟨0, 0, [], b.ordersMap, b.poolFree⟩ hInv bids1 s1 hw
      simp only [Book.match_order, if_neg hm, hside, hw]
      exact tail _ s1 Side.sell hb1

/-- Replacing the bid side with one whose prices form a sublist of the
old prices and whose levels are well formed, then refreshing the bid
cache, keeps the invariant. -/
theorem updateBid_inv (b : Book) (bids1 : List PriceLevel)
    (hsub : List.Sublist (pricesOf bids1) (pricesOf b.bids))
    (hok1 : levelsOk bids1) (hInv : BookInv b) :
    BookInv (Book.updateBestBid { b with bids := bids1 }) := by
  have hf := updateBestBid_fields { b with bids := bids1 }
  refine ⟨?_, ?_, ?_, ?_, ?_, ?_, ?_⟩
  · rw [show bidSorted (Book.updateBestBid { b with bids := bids1 }).bids =
        bidSorted bids1 from by rw [hf.1]]
    exact hInv.bsort.sublist hsub
  · rw [show askSorted (Book.updateBestBid { b with bids := bids1 }).asks =
        askSorted b.asks from by rw [hf.2.1]]
    exact hInv.asort
  · rw [show levelsOk (Book.updateBestBid { b with bids := bids1 }).bids =
        levelsOk bids1 from by rw [hf.1]]
    exact hok1
  · rw [show levelsOk (Book.updateBestBid { b with bids := bids1 }).asks =
        levelsOk b.asks from by rw [hf.2.1]]
    exact hInv.aok
  · rw [show asksBounded (Book.updateBestBid { b with bids := bids1 }).asks =
        asksBounded b.asks from by rw [hf.2.1]]
    exact hInv.abound
  · exact updateBestBid_cache _ hok1
  · exact askCacheOk_transfer hInv.acache hf.2.1 hf.2.2.1 hf.2.2.2

/-- Ask-side analogue of the previous lemma. -/
theorem updateAsk_inv (b : Book) (asks1 : List PriceLevel)
    (hsub : List.Sublist (pricesOf asks1) (pricesOf b.asks))
    (hok1 : levelsOk asks1) (hInv : BookInv b) :
    BookInv (Book.updateBestAsk { b with asks := asks1 }) := by
  have hf := updateBestAsk_fields { b with asks := asks1 }
  refine ⟨?_, ?_, ?_, ?_, ?_, ?_, ?_⟩
  · rw [show bidSorted (Book.updateBestAsk { b with asks := asks1 }).bids =
        bidSorted b.bids from by rw [hf.1]]
    exact hInv.bsort
  · rw [show askSorted (Book.updateBestAsk { b with asks := asks1 }).asks =
        askSorted asks1 from by rw [hf.2.1]]
    exact hInv.asort.sublist hsub
  · rw [show levelsOk (Book.updateBestAsk { b with asks := asks1 }).bids =
        levelsOk b.bids from by rw [hf.1]]
    exact hInv.bok
  · rw [show levelsOk (Book.updateBestAsk { b with asks := asks1 }).asks =
        levelsOk asks1 from by rw [hf.2.1]]
    exact hok1
  · rw [show asksBounded (Book.updateBestAsk { b with asks := asks1 }).asks =
        asksBounded asks1 from by rw [hf.2.1]]
    rw [asksBounded_iff]
    intro p hp
    exact (asksBounded_iff b.asks).mp hInv.abound p (hsub.subset hp)
  · exact bidCacheOk_transfer hInv.bcache hf.1 hf.2.2.1 hf.2.2.2
  · exact updateBestAsk_cache _ hok1

/-- Unlinking an entry keeps only entries of the original list. -/
theorem mem_removeFirstById (id : Nat) :
    ∀ (orders : List OBEntry) (a : OBEntry), a ∈ removeFirstById orders id →
      a ∈ orders := by
  intro orders
  induction orders with
  | nil => intro a ha; simp [removeFirstById] at ha
  | cons x rest ih =>
    intro a ha
    by_cases hx : x.id = id
    · rw [show removeFirstById (x :: rest) id = rest from by
        simp [removeFirstById, hx]] at ha
      exact List.mem_cons_of_mem x ha
    · rw [show removeFirstById (x :: rest) id = x :: removeFirstById rest id from by
        simp [removeFirstById, hx]] at ha
      rcases List.mem_cons.mp ha with h | h
      · exact h ▸ List.mem_cons_self x rest
      · exact List.mem_cons_of_mem x (ih a h)

/-- Unlinking the entry `find?` locates removes exactly its residual from
the sum of residuals. -/
theorem find_remove_sum (id : Nat) :
    ∀ (orders : List OBEntry) (e : OBEntry),
      orders.find? (fun x => x.id == id) = some e →
      sumResiduals (removeFirstById orders id) + (e.quantity - e.filled_quantity) =
        sumResiduals orders := by
  intro orders
  induction orders with
  | nil => intro e he; simp [List.find?] at he
  | cons x rest ih =>
    intro e he
    by_cases hx : x.id = id
    · have hex : e = x := by
        rw [List.find?_cons_of_pos _ (by simp [hx])] at he
        exact (Option.some_injective _ he).symm
      rw [show removeFirstById (x :: rest) id = rest from by simp [removeFirstById, hx],
        hex]
      simp [sumResiduals]
      omega
    · rw [List.find?_cons_of_neg _ (by simp [hx])] at he
      rw [show removeFirstById (x :: rest) id = x :: removeFirstById rest id from by
        simp [removeFirstById, hx]]
      have := ih e he
      simp [sumResiduals] at this ⊢
      omega

/-- `PriceLevel::remove_order` keeps the level price. -/
theorem remove_order_price (lv : PriceLevel) (id : Nat) :
    (PriceLevel.remove_order lv id).price = lv.price := by
  unfold PriceLevel.remove_order
  split <;> rfl

/-- `PriceLevel::remove_order` keeps a well-formed level well formed as long
as it stays nonempty. -/
theorem remove_order_ok (lv : PriceLevel) (id : Nat) (h : levelOk lv)
    (hne : (PriceLevel.remove_order lv id).orders ≠ []) :
    levelOk (PriceLevel.remove_order lv id) := by
  obtain ⟨hne0, hsum, hres⟩ := h
  unfold PriceLevel.remove_order at hne ⊢
  rcases hf : lv.orders.find? (fun x => x.id == id) with _ | e
  · rw [hf] at hne ⊢
    exact ⟨hne0, hsum, hres⟩
  · rw [hf] at hne ⊢
    refine ⟨hne, ?_, ?_⟩
    · have hfr := find_remove_sum id lv.orders e hf
      have hmem := List.mem_of_find?_eq_some hf
      have hre : e.filled_quantity < e.quantity := hres e hmem
      show sumResiduals (removeFirstById lv.orders id) ≤
        (if e.quantity - e.filled_quantity ≤ lv.total_quantity then
          lv.total_quantity - (e.quantity - e.filled_quantity) else 0)
      split <;> omega
    · intro a ha
      exact hres a (mem_removeFirstById id lv.orders a ha)

/-- Prices after `remove_from_book`'s per-side removal form a sublist of the
old prices. -/
theorem removeFromLevels_prices (p : Int) (id : Nat) :
    ∀ (levels : List PriceLevel),
      List.Sublist (pricesOf (removeFromLevels levels p id)) (pricesOf levels) := by
  intro levels
  induction levels with
  | nil => simp [removeFromLevels, pricesOf]
  | cons lv rest ih =>
    by_cases hp : lv.price = p
    · by_cases hemp : (PriceLevel.remove_order lv id).orders.isEmpty
      · rw [show removeFromLevels (lv :: rest) p id = rest from by
          simp [removeFromLevels, hp, hemp]]
        exact (List.Sublist.refl (pricesOf rest)).cons lv.price
      · rw [show removeFromLevels (lv :: rest) p id =
            PriceLevel.remove_order lv id :: rest from by
          simp [removeFromLevels, hp, hemp]]
        rw [show pricesOf (PriceLevel.remove_order lv id :: rest) =
            (PriceLevel.remove_order lv id).price :: pricesOf rest from rfl,
          remove_order_price]
        exact (List.Sublist.refl (pricesOf rest)).cons₂ lv.price
    · rw [show removeFromLevels (lv :: rest) p id =
          lv :: removeFromLevels rest p id from by simp [removeFromLevels, hp]]
      exact ih.cons₂ lv.price

/-- The per-side removal keeps all levels well formed. -/
theorem removeFromLevels_ok (p : Int) (id : Nat) :
    ∀ (levels : List PriceLevel), levelsOk levels →
      levelsOk (removeFromLevels levels p id) := by
  intro levels
  induction levels with
  | nil => intro _; simp [removeFromLevels]; intro lv hlv; simp at hlv
  | cons lv rest ih =>
    intro h
    have hlv := h lv (List.mem_cons_self lv rest)
    have hrest : levelsOk rest := fun x hx => h x (List.mem_cons_of_mem lv hx)
    by_cases hp : lv.price = p
    · by_cases hemp : (PriceLevel.remove_order lv id).orders.isEmpty
      · rw [show removeFromLevels (lv :: rest) p id = rest from by
          simp [removeFromLevels, hp, hemp]]
        exact hrest
      · rw [show removeFromLevels (lv :: rest) p id =
            PriceLevel.remove_order lv id :: rest from by
          simp [removeFromLevels, hp, hemp]]
        intro x hx
        rcases List.mem_cons.mp hx with hx1 | hx1
        · subst hx1
          exact remove_order_ok lv id hlv (by
            intro hnil
            rw [hnil] at hemp
            exact hemp rfl)
        · exact hrest x hx1
    · rw [show removeFromLevels (lv :: rest) p id =
          lv :: removeFromLevels rest p id from by simp [removeFromLevels, hp]]
      intro x hx
      rcases List.mem_cons.mp hx with hx1 | hx1
      · subst hx1; exact hlv
      · exact ih hrest x hx1

/-- `OrderBook::remove_from_book` preserves the book invariant. -/
theorem remove_from_book_inv (b : Book) (e : OBEntry) (hInv : BookInv b) :
    BookInv (b.remove_from_book e) := by
  cases hs : e.side
  · simp only [Book.remove_from_book, hs]
    exact updateBid_inv b (removeFromLevels b.bids e.price e.id)
      (removeFromLevels_prices e.price e.id b.bids)
      (removeFromLevels_ok e.price e.id b.bids hInv.bok) hInv
  · simp only [Book.remove_from_book, hs]
    exact updateAsk_inv b (removeFromLevels b.asks e.price e.id)
      (removeFromLevels_prices e.price e.id b.asks)
      (removeFromLevels_ok e.price e.id b.asks hInv.aok) hInv

/-- `OrderBook::add_order` preserves the book invariant for prices below the
best-ask sentinel. -/
theorem add_order_inv (b : Book) (id : Nat) (side : Side) (otype : OrderType)
    (price : Int) (quantity : Nat) (ts : Nat) (hInv : BookInv b)
    (hbound : price < askMax) :
    BookInv (b.add_order id side otype price quantity ts).1 := by
  simp only [Book.add_order]
  split_ifs with h
  · exact hInv
  · exact match_order_inv _ _ (bookInv_transfer hInv rfl rfl rfl rfl rfl rfl) hbound

/-- `OrderBook::cancel_order` preserves the book invariant. -/
theorem cancel_order_inv (b : Book) (id : Nat) (hInv : BookInv b) :
    BookInv (b.cancel_order id).1 := by
  simp only [Book.cancel_order]
  rcases hl : lookupKey b.ordersMap id with _ | e
  · exact hInv
  · exact bookInv_transfer (remove_from_book_inv b e hInv) rfl rfl rfl rfl rfl rfl

/-- `OrderBook::modify_order` preserves the book invariant for new prices
below the best-ask sentinel. -/
theorem modify_order_inv (b : Book) (id : Nat) (newPrice : Int) (newQty : Nat)
    (hInv : BookInv b) (hbound : newPrice < askMax) :
    BookInv (b.modify_order id newPrice newQty).1 := by
  simp only [Book.modify_order]
  rcases hl : lookupKey b.ordersMap id with _ | e
  · exact hInv
  · exact add_order_inv _ id e.side e.otype newPrice newQty e.timestamp
      (bookInv_transfer (remove_from_book_inv b e hInv) rfl rfl rfl rfl rfl rfl) hbound

/-- Every public call with a sentinel-safe price preserves the invariant. -/
theorem applyOp_inv (b : Book) (op : BookOp) (hInv : BookInv b)
    (hop : opPriceBound op) : BookInv (b.applyOp op) := by
  cases op with
  | add id sd ot p q ts => exact add_order_inv b id sd ot p q ts hInv hop
  | cancel id => exact cancel_order_inv b id hInv
  | modify id p q => exact modify_order_inv b id p q hInv hop

/-- The freshly constructed book satisfies the invariant. -/
theorem init_inv (instr : Nat) : BookInv (Book.init instr) := by
  refine ⟨?_, ?_, ?_, ?_, ?_, ?_, ?_⟩
  · simp [Book.init, bidSorted, pricesOf]
  · simp [Book.init, askSorted, pricesOf]
  · intro lv hlv; simp [Book.init] at hlv
  · intro lv hlv; simp [Book.init] at hlv
  · intro lv hlv; simp [Book.init] at hlv
  · exact ⟨fun _ => ⟨rfl, rfl⟩, fun lv rest h => by simp [Book.init] at h⟩
  · exact ⟨fun _ => ⟨rfl, rfl⟩, fun lv rest h => by simp [Book.init] at h⟩

/-- Running any sentinel-safe call sequence preserves the invariant. -/
theorem runBook_inv (instr : Nat) (ops : List BookOp)
    (hops : ∀ op ∈ ops, opPriceBound op) : BookInv (runBook instr ops) := by
  have gen : ∀ (l : List BookOp) (b : Book), BookInv b →
      (∀ op ∈ l, opPriceBound op) → BookInv (l.foldl Book.applyOp b) := by
    intro l
    induction l with
    | nil => intro b hb _; exact hb
    | cons op rest ih =>
      intro b hb hl
      exact ih (b.applyOp op) (applyOp_inv b op hb (hl op (List.mem_cons_self op rest)))
        (fun x hx => hl x (List.mem_cons_of_mem op hx))
  exact gen ops (Book.init instr) (init_inv instr) hops

/-- Prices of a cons of levels. -/
theorem pricesOf_cons (lv : PriceLevel) (rest : List PriceLevel) :
    pricesOf (lv :: rest) = lv.price :: pricesOf rest := rfl

/-- C4 (amended): after any sequence of `add_order`, `cancel_order` and
`modify_order` calls whose prices stay below the best-ask empty sentinel
`INT64_MAX`, `best_bid()` equals the maximum resting bid price (0 when the
bid side is empty) and `best_ask()` equals the minimum resting ask price
(0 when the ask side is empty).  The price bound is necessary: a sell
resting exactly at the sentinel makes `best_ask()` report an empty side. -/
theorem C4_bbo_tracks_extremes (instr : Nat) (ops : List BookOp)
    (hops : ∀ op ∈ ops, opPriceBound op) :
    ((runBook instr ops).bids = [] → (runBook instr ops).best_bid = 0) ∧
    ((runBook instr ops).bids ≠ [] →
      (runBook instr ops).best_bid ∈ pricesOf (runBook instr ops).bids ∧
      ∀ p ∈ pricesOf (runBook instr ops).bids, p ≤ (runBook instr ops).best_bid) ∧
    ((runBook instr ops).asks = [] → (runBook instr ops).best_ask = 0) ∧
    ((runBook instr ops).asks ≠ [] →
      (runBook instr ops).best_ask ∈ pricesOf (runBook instr ops).asks ∧
      ∀ p ∈ pricesOf (runBook instr ops).asks, (runBook instr ops).best_ask ≤ p) := by
  have hInv := runBook_inv instr ops hops
  refine ⟨?_, ?_, ?_, ?_⟩
  · intro hnil
    have h := (hInv.bcache.1 hnil).1
    simp [Book.best_bid, h]
  · intro hne
    rcases list_split (runBook instr ops).bids with h0 | ⟨lv, rest, h0⟩
    · exact absurd h0 hne
    · have hc := hInv.bcache.2 lv rest h0
      have hbb : (runBook instr ops).best_bid = lv.price := hc.1
      constructor
      · rw [hbb, h0, pricesOf_cons]
        exact List.mem_cons_self lv.price (pricesOf rest)
      · intro p hp
        rw [hbb]
        have hsort := hInv.bsort
        rw [show bidSorted (runBook instr ops).bids =
            (pricesOf (runBook instr ops).bids).Pairwise (fun a b => b < a) from rfl,
          h0, pricesOf_cons, List.pairwise_cons] at hsort
        rw [h0, pricesOf_cons] at hp
        rcases List.mem_cons.mp hp with h | h
        · exact le_of_eq h
        · exact le_of_lt (hsort.1 p h)
  · intro hnil
    have h := (hInv.acache.1 hnil).1
    simp [Book.best_ask, h]
  · intro hne
    rcases list_split (runBook instr ops).asks with h0 | ⟨lv, rest, h0⟩
    · exact absurd h0 hne
    · have hc := hInv.acache.2 lv rest h0
      have hlt : lv.price < askMax := hInv.abound lv (by rw [h0]; exact List.mem_cons_self lv rest)
      have hba : (runBook instr ops).best_ask = lv.price := by
        show (if (runBook instr ops).bestAskC = askMax then 0
          else (runBook instr ops).bestAskC) = lv.price
        rw [hc.1, if_neg (by omega)]
      constructor
      · rw [hba, h0, pricesOf_cons]
        exact List.mem_cons_self lv.price (pricesOf rest)
      · intro p hp
        rw [hba]
        have hsort := hInv.asort
        rw [show askSorted (runBook instr ops).asks =
            (pricesOf (runBook instr ops).asks).Pairwise (fun a b => a < b) from rfl,
          h0, pricesOf_cons, List.pairwise_cons] at hsort
        rw [h0, pricesOf_cons] at hp
        rcases List.mem_cons.mp hp with h | h
        · exact le_of_eq h.symm
        · exact le_of_lt (hsort.1 p h)

/-- Witness for C4: a resting sell at 10050 and a resting buy at 9900
leave both cached quotes on the extreme resting prices. -/
theorem C4_bbo_tracks_extremes_witness :
    (runBook 7 [BookOp.add 1 Side.sell OrderType.limit 10050 50 1,
        BookOp.add 2 Side.buy OrderType.limit 9900 30 2]).best_bid ∈
      pricesOf (runBook 7 [BookOp.add 1 Side.sell OrderType.limit 10050 50 1,
        BookOp.add 2 Side.buy OrderType.limit 9900 30 2]).bids ∧
    (runBook 7 [BookOp.add 1 Side.sell OrderType.limit 10050 50 1,
        BookOp.add 2 Side.buy OrderType.limit 9900 30 2]).best_ask ∈
      pricesOf (runBook 7 [BookOp.add 1 Side.sell OrderType.limit 10050 50 1,
        BookOp.add 2 Side.buy OrderType.limit 9900 30 2]).asks :=
  ⟨((C4_bbo_tracks_extremes 7 [BookOp.add 1 Side.sell OrderType.limit 10050 50 1,
        BookOp.add 2 Side.buy OrderType.limit 9900 30 2] (by decide)).2.1 (by decide)).1,
   ((C4_bbo_tracks_extremes 7 [BookOp.add 1 Side.sell OrderType.limit 10050 50 1,
        BookOp.add 2 Side.buy OrderType.limit 9900 30 2] (by decide)).2.2.2 (by decide)).1⟩

end Trading
